import Mathlib

/-!
Verification of `merge_koreader.py` (rsnemmen/koreader-merge).

This file gives a shallow embedding of the program's data model and of the
functions the claims are about:

* the annotation merge engine (`annotation_key`, `merge_annotations`),
* the Lua-subset parser (`parse_lua_string`, `parse_lua_long_string`,
  `skip_whitespace_and_comments`, `parse_lua_value`, `parse_lua_table`),
* the serializer (`lua_escape_string`, `format_lua_value`),
* the document-assembly fragments of `main` (stats and summary selection).

Annotation records are modelled as a structure with the optional fields the
program reads (`pos0`, `pos1`, `page`, `chapter`, `pageno`, `datetime`,
`datetime_updated`, `note`); an absent Python dict key is `none`.  Python
strings compare lexicographically by code point, as Lean `String` does.
Python `dict` preserves insertion order and updates keys in place; it is
modelled by an association list with in-place update.  Python's stable
`sorted`/`list.sort` is modelled by a stable insertion sort that moves an
element past another exactly when it is strictly smaller under the sort key,
which is precisely the comparison semantics Python's stable sort guarantees.
-/

namespace Koreader

/-- An annotation record: the fields of the Python dict that
`merge_koreader.py` ever reads.  `none` models an absent key. -/
structure Ann where
  pos0 : Option String
  pos1 : Option String
  page : Option Int
  chapter : Option String
  pageno : Option Int
  datetime : Option String
  datetime_updated : Option String
  note : Option String
deriving DecidableEq, Repr

/-- The identity-key tuples returned by `annotation_key` (lines 246-252):
`('highlight', pos0, pos1)` or `('bookmark', page, chapter)`. -/
inductive AKey where
  | highlight (p0 p1 : String)
  | bookmark (page : Option Int) (chapter : Option String)
deriving DecidableEq, Repr

/-- `annotation_key` (lines 246-252): highlights (both `pos0` and `pos1`
present) key on the positions; everything else keys on `(page, chapter)`. -/
def annotation_key (ann : Ann) : AKey :=
  match ann.pos0, ann.pos1 with
  | some p0, some p1 => .highlight p0 p1
  | some _, none => .bookmark ann.page ann.chapter
  | none, _ => .bookmark ann.page ann.chapter

/-- `x.get('datetime_updated', x.get('datetime', ''))` (lines 265-266). -/
def getTimestamp (a : Ann) : String :=
  a.datetime_updated.getD (a.datetime.getD "")

/-- Truthiness of `x.get('note')` (line 272): present and non-empty. -/
def noteTruthy (a : Ann) : Bool :=
  !(a.note.getD "").isEmpty

/-- Python dict lookup (first and only binding of a key). -/
def pyDictGet [DecidableEq κ] (k : κ) : List (κ × β) → Option β
  | [] => none
  | (k', v) :: m => if k' = k then some v else pyDictGet k m

/-- Python `d[k] = v`: update the existing binding in place (keeping its
position in the insertion order), else append. -/
def pyDictSet [DecidableEq κ] (k : κ) (v : β) : List (κ × β) → List (κ × β)
  | [] => [(k, v)]
  | (k', v') :: m => if k' = k then (k, v) :: m else (k', v') :: pyDictSet k v m

/-- One iteration of the inner loop of `merge_annotations` (lines 260-275).
`ann.copy()` produces a record equal to `ann`; object identity is studied
separately in the heap-indexed model below. -/
def mergeStep (m : List (AKey × Ann)) (ann : Ann) : List (AKey × Ann) :=
  let key := annotation_key ann
  match pyDictGet key m with
  | some existing =>
      let existing_dt := getTimestamp existing
      let new_dt := getTimestamp ann
      if existing_dt < new_dt then pyDictSet key ann m
      else if new_dt = existing_dt ∧ noteTruthy ann ∧ ¬ noteTruthy existing then
        pyDictSet key ann m
      else m
  | none => pyDictSet key ann m

/-- Stable insertion used to model Python's stable sort: `x` moves ahead of
`y` exactly when `lt x y`; on a tie it stays behind, preserving the original
relative order, exactly as Python's stable sort does with `<` on sort keys. -/
def insertLt (lt : α → α → Bool) (x : α) : List α → List α
  | [] => [x]
  | y :: l => if lt x y then x :: y :: l else y :: insertLt lt x l

/-- Model of Python's stable sort (`sorted` / `list.sort`). -/
def stableSortLt (lt : α → α → Bool) (l : List α) : List α :=
  l.foldl (fun acc x => insertLt lt x acc) []

/-- The sort key of line 278-282: `(x.get('pageno', 0), x.get('pos0', ''),
x.get('datetime', ''))`. -/
def sortKey (a : Ann) : Int × String × String :=
  (a.pageno.getD 0, a.pos0.getD "", a.datetime.getD "")

/-- Strict lexicographic order on Python tuples `(int, str, str)`. -/
def tripleLt : Int × String × String → Int × String × String → Bool
  | (a1, a2, a3), (b1, b2, b3) =>
    decide (a1 < b1) || (decide (a1 = b1) &&
      (decide (a2 < b2) || (decide (a2 = b2) && decide (a3 < b3))))

/-- Non-strict lexicographic order on the sort-key triples. -/
def tripleLe : Int × String × String → Int × String × String → Bool
  | (a1, a2, a3), (b1, b2, b3) =>
    decide (a1 < b1) || (decide (a1 = b1) &&
      (decide (a2 < b2) || (decide (a2 = b2) && decide (a3 ≤ b3))))

/-- Comparison used by `sorted(merged.values(), key=...)` (lines 278-282). -/
def annLt (a b : Ann) : Bool := tripleLt (sortKey a) (sortKey b)

/-- `merge_annotations` (lines 255-284): fold every record of every input
list through the dedup dict, then stably sort the surviving values. -/
def merge_annotations (annotations_list : List (List Ann)) : List Ann :=
  let merged := annotations_list.foldl (fun m anns => anns.foldl mergeStep m) []
  stableSortLt annLt (merged.map Prod.snd)

/-! ## The Lua-subset parser

The Python functions take `(s, pos)` and only ever inspect `s[pos:]`,
returning a new position.  They are embedded as functions on the remaining
suffix (a `List Char`) that return the unconsumed suffix; the consumed
length is the difference of lengths.  The parser error type collects the
`ValueError` raise sites (positions and excerpts in the messages are not
modelled); `outOfFuel` is the artefact of embedding the unbounded
`parse_lua_value`/`parse_lua_table` mutual recursion and the table loop
with a fuel parameter (any sufficiently large fuel gives the Python
behaviour). -/

/-- The `ValueError` raise sites of the parser.  Python `IndexError`s from
indexing past the end of the input (possible inside `parse_lua_table`) are
modelled by the corresponding error constructor of the check that would
have been performed. -/
inductive LuaErr where
  | unexpectedEnd
  | invalidLongBracket
  | unterminatedLongString
  | unexpectedToken
  | expectedBrace
  | unterminatedTable
  | invalidKey
  | expectedRBracket
  | expectedEq
  | outOfFuel
deriving DecidableEq, Repr

/-- Keys of parsed Lua tables: the parser only ever creates `int` keys (from
the `-?\d+` regex) or `str` keys (from quoted strings and identifiers). -/
inductive LuaKey where
  | num (n : Int)
  | str (s : String)
deriving DecidableEq, Repr

/-- The value tree produced by the parser: `None`, `bool`, `int`, `float`,
`str`, or `dict`.  Python floats are idealized as rational numbers (the
parser builds them from exact decimal literals). -/
inductive Value where
  | nil
  | bool (b : Bool)
  | num (n : Int)
  | flt (q : Rat)
  | str (s : String)
  | table (t : List (LuaKey × Value))

/-- The body of the `while` loop of `parse_lua_string` (lines 20-55).
`quote` is the opening quote character, `acc` the `result` accumulator in
reverse order.  The loop has no failure path: it ends either at the closing
quote or at the end of the input. -/
def parseStringAux (quote : Char) : List Char → List Char → List Char × List Char
  | acc, [] => (acc.reverse, [])
  | acc, '\\' :: '\r' :: '\n' :: rest => parseStringAux quote ('\n' :: acc) rest
  | acc, '\\' :: '\r' :: rest => parseStringAux quote ('\n' :: acc) rest
  | acc, '\\' :: [] => (acc.reverse, [])
  | acc, '\\' :: e :: rest =>
      let c := if e = 'n' then '\n' else if e = 't' then '\t'
        else if e = 'r' then '\r' else e
      parseStringAux quote (c :: acc) rest
  | acc, c :: rest =>
      if c = quote then (acc.reverse, rest)
      else parseStringAux quote (c :: acc) rest

/-- `parse_lua_string` (lines 14-56): the input starts at the opening quote;
returns the decoded content and the suffix after the literal.  Callers
guarantee a nonempty input starting with `"` or `'`. -/
def parse_lua_string : List Char → List Char × List Char
  | [] => ([], [])
  | q :: rest => parseStringAux q [] rest

/-- `s.find(pat, pos)` followed by splitting: the text strictly before the
first occurrence of `pat` and the suffix after it, or `none` if `pat` does
not occur. -/
def splitAtSub (pat : List Char) : List Char → Option (List Char × List Char)
  | [] => none
  | c :: rest =>
    if pat.isPrefixOf (c :: rest) then some ([], (c :: rest).drop pat.length)
    else
      match splitAtSub pat rest with
      | some (pre, post) => some (c :: pre, post)
      | none => none

theorem splitAtSub_post_length_le (pat : List Char) :
    ∀ (s pre post : List Char), splitAtSub pat s = some (pre, post) →
      post.length ≤ s.length := by
  intro s
  induction s with
  | nil => intro pre post h; simp [splitAtSub] at h
  | cons c rest ih =>
    intro pre post h
    unfold splitAtSub at h
    split at h
    · simp at h
      obtain ⟨-, h2⟩ := h
      calc post.length = ((c :: rest).drop pat.length).length := by rw [h2]
        _ ≤ (c :: rest).length := by rw [List.length_drop]; omega
    · split at h
      · next pre' post' hsub =>
        simp at h
        obtain ⟨-, h2⟩ := h
        have := ih pre' post' hsub
        simp [← h2]
        omega
      · simp at h

/-- `parse_lua_long_string` (lines 59-87): the input starts at the first
`[`; count the `=` run, require a second `[`, take the content up to the
mirrored closing bracket, and strip a single leading newline. -/
def parse_lua_long_string (s : List Char) : Except LuaErr (List Char × List Char) :=
  match s with
  | '[' :: rest =>
    let eqc := (rest.takeWhile (fun y => y = '=')).length
    match rest.drop eqc with
    | '[' :: body =>
      match splitAtSub (']' :: (List.replicate eqc '=' ++ [']'])) body with
      | some (content, after) =>
          let content := if content.head? = some '\n' then content.tail else content
          .ok (content, after)
      | none => .error .unterminatedLongString
    | _ => .error .invalidLongBracket
  | _ => .error .invalidLongBracket

/-- The opener-matched part of the long-comment path (lines 103-111): `r3`
holds the characters after `--[`; count the `=` run, require a second `[`,
and return the suffix after the mirrored closing bracket if one occurs. -/
def longCommentBody (r3 : List Char) : Option (List Char) :=
  match r3.drop (r3.takeWhile (fun y => y = '=')).length with
  | '[' :: body =>
    match splitAtSub
        (']' :: (List.replicate (r3.takeWhile (fun y => y = '=')).length '=' ++ [']'])) body with
    | some (_, after) => some after
    | none => none
  | _ => none

/-- The long-comment path of `skip_whitespace_and_comments` (lines 100-112):
`r2` holds the characters after the `--`.  Returns the suffix after the
closing bracket when a long comment opener is present and terminated;
`none` falls back to the line-comment behaviour, as the code does. -/
def longCommentEnd (r2 : List Char) : Option (List Char) :=
  match r2 with
  | '[' :: x :: r3' =>
    if x = '[' ∨ x = '=' then longCommentBody (x :: r3') else none
  | _ => none

theorem longCommentBody_length_le (r3 after : List Char)
    (h : longCommentBody r3 = some after) : after.length ≤ r3.length := by
  unfold longCommentBody at h
  split at h
  · next body hdrop =>
    split at h
    · next pre post hsplit =>
      simp at h
      subst h
      have h1 := splitAtSub_post_length_le _ _ _ _ hsplit
      have h2 : ('[' :: body).length ≤ r3.length := by
        rw [← hdrop, List.length_drop]; omega
      simp at h2
      omega
    · simp at h
  · simp at h

theorem longCommentEnd_length_le (r2 after : List Char)
    (h : longCommentEnd r2 = some after) : after.length ≤ r2.length := by
  unfold longCommentEnd at h
  split at h
  · next x r3' =>
    split at h
    · have := longCommentBody_length_le _ _ h
      simp at this ⊢
      omega
    · simp at h
  · simp at h

theorem dropWhile_length_le (p : α → Bool) (l : List α) :
    (l.dropWhile p).length ≤ l.length := by
  induction l with
  | nil => simp
  | cons c rest ih =>
    by_cases h : p c
    · rw [List.dropWhile_cons_of_pos h]
      exact Nat.le_trans ih (by simp)
    · rw [List.dropWhile_cons_of_neg h]

/-- `skip_whitespace_and_comments` (lines 90-121): skip whitespace, line
comments (`--` up to the newline) and terminated long comments
(`--[[ .. ]]`, `--[=[ .. ]=]`, ...); an unterminated long comment falls
back to line-comment behaviour. -/
def skip_whitespace_and_comments : List Char → List Char
  | [] => []
  | c :: rest =>
    if c = ' ' ∨ c = '\t' ∨ c = '\n' ∨ c = '\r' then
      skip_whitespace_and_comments rest
    else if c = '-' then
      match rest with
      | '-' :: r2 =>
        match hlc : longCommentEnd r2 with
        | some after => skip_whitespace_and_comments after
        | none => skip_whitespace_and_comments (r2.dropWhile (fun x => !(x = '\n')))
      | _ => c :: rest
    else c :: rest
termination_by s => s.length
decreasing_by
  · simp only [List.length_cons]; omega
  · have := longCommentEnd_length_le _ _ hlc
    simp only [List.length_cons]
    omega
  · have : (r2.dropWhile (fun x => !(x = '\n'))).length ≤ r2.length :=
      dropWhile_length_le _ r2
    simp only [List.length_cons]
    omega

/-- Decimal digit accumulation, the value of a run of digits. -/
def decValue (l : List Char) : Nat :=
  l.foldl (fun a c => 10 * a + (c.toNat - 48)) 0

/-- The pieces matched by the number regex of line 152,
`-?\d+\.?\d*(?:[eE][+-]?\d+)?`. -/
structure NumLit where
  neg : Bool
  ip : List Char
  hasDot : Bool
  frac : List Char
  expo : Option (Bool × List Char)
deriving DecidableEq, Repr

/-- The `-?` of the number regex: consume a leading minus if present. -/
def splitSign (s : List Char) : Bool × List Char :=
  if s.head? == some '-' then (true, s.tail) else (false, s)

/-- A greedy digit run and the remaining input. -/
def splitDigits (s : List Char) : List Char × List Char :=
  (s.takeWhile Char.isDigit, s.drop (s.takeWhile Char.isDigit).length)

/-- The `\.?\d*` of the number regex: a dot with a possibly empty digit
run, or nothing. -/
def splitDot (s : List Char) : Bool × List Char × List Char :=
  if s.head? == some '.' then
    (true, s.tail.takeWhile Char.isDigit,
      s.tail.drop (s.tail.takeWhile Char.isDigit).length)
  else (false, [], s)

/-- The `(?:[eE][+-]?\d+)?` of the number regex: the group participates
only when it contributes at least one digit (the regex engine backs out of
the whole group otherwise, consuming nothing). -/
def splitExp (s : List Char) : Option (Bool × List Char) × List Char :=
  if (s.head? == some 'e') || (s.head? == some 'E') then
    let after := s.tail
    let signed := (after.head? == some '-') || (after.head? == some '+')
    let eneg := after.head? == some '-'
    let after2 := if signed then after.tail else after
    let ds := after2.takeWhile Char.isDigit
    if ds.isEmpty then (none, s) else (some (eneg, ds), after2.drop ds.length)
  else (none, s)

/-- `re.match` of the number regex (line 152) against the remaining input:
`-?\d+\.?\d*(?:[eE][+-]?\d+)?` — an optional sign, a mandatory digit run,
an optional `.` with a possibly empty digit run, and an optional exponent
group.  Returns the parts and the unconsumed suffix. -/
def matchNumber (s : List Char) : Option (NumLit × List Char) :=
  let (neg, s1) := splitSign s
  let (ip, s2) := splitDigits s1
  if ip.isEmpty then none
  else
    let (hasDot, frac, s3) := splitDot s2
    let (expo, s4) := splitExp s3
    some (⟨neg, ip, hasDot, frac, expo⟩, s4)

/-- `int(num_str)` for a match without `.`/`e` (line 158). -/
def intOfNumLit (n : NumLit) : Int :=
  if n.neg then -(decValue n.ip : Int) else (decValue n.ip : Int)

/-- `float(num_str)` (line 156), idealized as exact rational arithmetic: the
decimal literal's value.  (CPython rounds this value to the nearest IEEE-754
double; the idealization is exact for the dyadic short decimals exercised
here.) -/
def ratOfNumLit (n : NumLit) : Rat :=
  let mant : Rat := (decValue n.ip : Rat) + (decValue n.frac : Rat) / ((10 : Rat) ^ n.frac.length)
  let v : Rat := match n.expo with
    | none => mant
    | some (eneg, ds) =>
      if eneg then mant / ((10 : Rat) ^ decValue ds) else mant * ((10 : Rat) ^ decValue ds)
  if n.neg then -v else v

/-- The `-?\d+` regex used for bracketed integer keys (line 194). -/
def matchInt (s : List Char) : Option (Int × List Char) :=
  match s with
  | '-' :: r =>
    let ds := r.takeWhile Char.isDigit
    if ds.isEmpty then none else some (-(decValue ds : Int), r.drop ds.length)
  | _ =>
    let ds := s.takeWhile Char.isDigit
    if ds.isEmpty then none else some ((decValue ds : Int), s.drop ds.length)

/-- `s[pos:pos+n] == kw and (pos+n >= len(s) or not s[pos+n].isalnum())`
(lines 144-148): the keyword occurs here as a whole token, the following
character (if any) not being alphanumeric.  Python's `str.isalnum` is
modelled by `Char.isAlphanum` (they agree on ASCII; in particular both are
false on `_`). -/
def kwBoundary (kw : List Char) (s : List Char) : Bool :=
  kw.isPrefixOf s &&
    (match s.drop kw.length with
     | [] => true
     | c :: _ => !c.isAlphanum)

mutual

/-- `parse_lua_value` (lines 124-160): try, in order, long string, short
string, table, the three keyword literals with a token-boundary check, and
finally the number regex. -/
def parse_lua_value : Nat → List Char → Except LuaErr (Value × List Char)
  | 0, _ => .error .outOfFuel
  | fuel + 1, s =>
    match skip_whitespace_and_comments s with
    | [] => .error .unexpectedEnd
    | c :: rest =>
      if c = '[' ∧ (rest.head? = some '[' ∨ rest.head? = some '=') then
        match parse_lua_long_string (c :: rest) with
        | .ok (content, after) => .ok (.str (String.mk content), after)
        | .error e => .error e
      else if c = '"' ∨ c = '\'' then
        let (content, after) := parse_lua_string (c :: rest)
        .ok (.str (String.mk content), after)
      else if c = '{' then
        match parse_lua_table fuel (c :: rest) with
        | .ok (t, after) => .ok (.table t, after)
        | .error e => .error e
      else if kwBoundary ('t' :: 'r' :: 'u' :: 'e' :: []) (c :: rest) then
        .ok (.bool true, (c :: rest).drop 4)
      else if kwBoundary ('f' :: 'a' :: 'l' :: 's' :: 'e' :: []) (c :: rest) then
        .ok (.bool false, (c :: rest).drop 5)
      else if kwBoundary ('n' :: 'i' :: 'l' :: []) (c :: rest) then
        .ok (.nil, (c :: rest).drop 3)
      else
        match matchNumber (c :: rest) with
        | some (lit, after) =>
          if lit.hasDot ∨ lit.expo.isSome then .ok (.flt (ratOfNumLit lit), after)
          else .ok (.num (intOfNumLit lit), after)
        | none => .error .unexpectedToken
  termination_by fuel _ => (fuel, 0)

/-- `parse_lua_table` (lines 163-229): expect `{`, then run the entry loop. -/
def parse_lua_table : Nat → List Char → Except LuaErr (List (LuaKey × Value) × List Char)
  | fuel, '{' :: rest => parseTableBody fuel [] rest
  | _, _ => .error .expectedBrace
  termination_by fuel _ => (fuel, 3)

/-- The `while True` entry loop of `parse_lua_table` (lines 171-228); `acc`
is the `result` dict.  One fuel unit per iteration. -/
def parseTableBody : Nat → List (LuaKey × Value) → List Char →
    Except LuaErr (List (LuaKey × Value) × List Char)
  | 0, _, _ => .error .outOfFuel
  | fuel + 1, acc, s =>
    match skip_whitespace_and_comments s with
    | [] => .error .unterminatedTable
    | '}' :: rest => .ok (acc, rest)
    | ',' :: rest => parseTableBody fuel acc rest
    | '[' :: rest =>
      match skip_whitespace_and_comments rest with
      | [] => .error .invalidKey
      | c :: rest2 =>
        if c = '"' ∨ c = '\'' then
          let (content, after) := parse_lua_string (c :: rest2)
          parseTableEntry fuel acc (.str (String.mk content)) true after
        else
          match matchInt (c :: rest2) with
          | some (n, after) => parseTableEntry fuel acc (.num n) true after
          | none => .error .invalidKey
    | c :: rest =>
      if c.isAlpha ∨ c = '_' then
        let ident := (c :: rest).takeWhile (fun x => x.isAlphanum || x = '_')
        parseTableEntry fuel acc (.str (String.mk ident)) false ((c :: rest).drop ident.length)
      else .error .invalidKey
  termination_by fuel _ _ => (fuel, 1)

/-- The tail of one loop iteration (lines 201-227): for a bracketed key,
expect `]`; then expect `=`, parse the value, store it, and swallow one
separating comma. -/
def parseTableEntry : Nat → List (LuaKey × Value) → LuaKey → Bool → List Char →
    Except LuaErr (List (LuaKey × Value) × List Char)
  | fuel, acc, key, bracketed, s =>
    let afterKey : Except LuaErr (List Char) :=
      if bracketed then
        match skip_whitespace_and_comments s with
        | ']' :: r => .ok r
        | _ => .error .expectedRBracket
      else .ok s
    match afterKey with
    | .error e => .error e
    | .ok r =>
      match skip_whitespace_and_comments r with
      | '=' :: r2 =>
        match parse_lua_value fuel r2 with
        | .ok (v, afterVal) =>
          let acc' := pyDictSet key v acc
          let s2 := skip_whitespace_and_comments afterVal
          match s2 with
          | ',' :: r3 => parseTableBody fuel acc' r3
          | _ => parseTableBody fuel acc' s2
        | .error e => .error e
      | _ => .error .expectedEq
  termination_by fuel _ _ _ _ => (fuel, 2)

end

/-! ## The serializer -/

/-- One decimal digit character (argument taken modulo the `_` fallback). -/
def digitChar : Nat → Char
  | 0 => '0' | 1 => '1' | 2 => '2' | 3 => '3' | 4 => '4'
  | 5 => '5' | 6 => '6' | 7 => '7' | 8 => '8' | _ => '9'

/-- The decimal digits of a natural number, most significant first:
Python `str` on a non-negative `int`. -/
def natToDec (n : Nat) : List Char :=
  if h : n < 10 then [digitChar n]
  else natToDec (n / 10) ++ [digitChar (n % 10)]
termination_by n
decreasing_by
  have h10 : 10 ≤ n := Nat.le_of_not_lt h
  exact Nat.div_lt_self (by omega) (by omega)

/-- Python `str` on an `int` (line 316): decimal digits with a sign for
negative values. -/
def intToDec (n : Int) : List Char :=
  if n < 0 then '-' :: natToDec n.natAbs else natToDec n.natAbs

/-- Python `int()` applied to a float (line 319): truncation toward zero,
on the idealized rational floats. -/
def pyTrunc (q : Rat) : Int :=
  if q.num < 0 then -(q.num.natAbs / q.den : Nat) else (q.num.natAbs / q.den : Nat)

/-- The number of fractional digits of the shortest exact decimal of `q`:
the least `k` with `q * 10^k` integral, sought over the divisibility of the
reduced numerator (reaching the fuel bound returns it unchanged; dyadic
floats in `str`'s positional-notation range terminate well before 400). -/
def decExpSearch (q : Rat) : Nat → Nat → Nat
  | 0, k => k
  | fuel + 1, k =>
    if (q.num * (10 : Int) ^ k) % (q.den : Int) == 0 then k
    else decExpSearch q fuel (k + 1)

/-- Python `str` on a non-integer float (line 321).  Modelled from CPython's
`repr`, which prints the shortest decimal that rounds back to the same
float; for a float whose value is a terminating decimal — as every float
that `str` prints in positional notation is, in the idealized
rational-float semantics used here — that is exactly the shortest
terminating decimal expansion, produced here digit by digit. -/
def pyFloatStr (q : Rat) : List Char :=
  let k := decExpSearch q 400 0
  let m := (q.num * (10 : Int) ^ k) / (q.den : Int)
  let ds := natToDec m.natAbs
  let ds := if ds.length < k + 1 then List.replicate (k + 1 - ds.length) '0' ++ ds else ds
  let ip := ds.take (ds.length - k)
  let fp := ds.drop (ds.length - k)
  (if q.num < 0 then ['-'] else []) ++ ip ++ '.' :: fp

/-- One character of `lua_escape_string` (lines 287-303). -/
def lua_escape_char (c : Char) : List Char :=
  if c = '\\' then ['\\', '\\']
  else if c = '"' then ['\\', '"']
  else if c = '\n' then ['\\', 'n']
  else if c = '\r' then ['\\', 'r']
  else if c = '\t' then ['\\', 't']
  else [c]

/-- `lua_escape_string` (lines 287-303): escape `\`, `"`, newline, carriage
return and tab; pass every other character through raw; wrap in `"`. -/
def lua_escape_string (s : List Char) : List Char :=
  '"' :: s.foldr (fun c acc => lua_escape_char c ++ acc) ['"']

/-- `format_lua_value` (lines 306-346) with a fuel parameter for the
recursion into table entries (scalars do not consume fuel).  The Python-list
branch (lines 347-356) is unreachable from parsed values and is not
modelled. -/
def format_lua_value : Nat → Value → Nat → Option (List Char)
  | _, .nil, _ => some ('n' :: 'i' :: 'l' :: [])
  | _, .bool true, _ => some ('t' :: 'r' :: 'u' :: 'e' :: [])
  | _, .bool false, _ => some ('f' :: 'a' :: 'l' :: 's' :: 'e' :: [])
  | _, .num n, _ => some (intToDec n)
  | _, .flt q, _ =>
      some (if q = ((pyTrunc q : Int) : Rat) then intToDec (pyTrunc q) else pyFloatStr q)
  | _, .str s, _ => some (lua_escape_string s.data)
  | 0, .table _, _ => none
  | fuel + 1, .table t, indent =>
      if t.isEmpty then some ('{' :: '}' :: []) else
      let intKeys := stableSortLt (fun a b => decide (a < b))
        (t.filterMap (fun kv => match kv.1 with | .num n => some n | _ => none))
      let strKeys := stableSortLt (fun a b => decide (a < b))
        (t.filterMap (fun kv => match kv.1 with | .str s => some s | _ => none))
      let keyChars : LuaKey → List Char := fun k =>
        match k with
        | .num n => '[' :: (intToDec n ++ [']'])
        | .str s => '[' :: '"' :: (s.data ++ ('"' :: ']' :: []))
      let nextIndent := List.replicate (4 * (indent + 1)) ' '
      let indentStr := List.replicate (4 * indent) ' '
      match (intKeys.map LuaKey.num ++ strKeys.map LuaKey.str).mapM
          (fun k =>
            match format_lua_value fuel ((pyDictGet k t).getD .nil) (indent + 1) with
            | some vs => some (nextIndent ++ keyChars k ++ (' ' :: '=' :: ' ' :: vs) ++ [','])
            | none => none) with
      | some entryLines =>
          some ('{' :: '\n' ::
            ((entryLines.intersperse ['\n']).flatten ++ ('\n' :: (indentStr ++ ['}']))))
      | none => none

/-! ## The document assembler (`main`, lines 436-489) -/

/-- The `doc_props` sub-table of the first document, as read by `main`. -/
structure DocProps where
  authors : Option String
  language : Option String
  title : Option String
deriving DecidableEq, Repr

/-- The fields of a decoded document that `main` reads when assembling the
output.  The `summary` is kept as a raw table so that Python truthiness
(non-emptiness) of `d.get('summary')` is expressible. -/
structure Doc where
  doc_pages : Option Int
  doc_props : Option DocProps
  summary : Option (List (LuaKey × Value))

/-- The fresh `stats` table built by `main` (lines 473-482). -/
structure Stats where
  authors : String
  highlights : Nat
  language : String
  notes : Nat
  pages : Int
  performance_in_pages : List (LuaKey × Value)
  series : String
  title : String

/-- Lines 436-439 and 471-482 of `main`: the highlight and note counts over
the merged records, and the fresh `stats` table. -/
def buildStats (first_data : Doc) (merged : List Ann) : Stats :=
  let highlights := merged.countP (fun ann => ann.pos0.isSome)
  let notes := merged.countP (fun ann => noteTruthy ann)
  let doc_props := first_data.doc_props.getD ⟨none, none, none⟩
  { authors := doc_props.authors.getD ""
    highlights := highlights
    language := doc_props.language.getD ""
    notes := notes
    pages := first_data.doc_pages.getD 0
    performance_in_pages := []
    series := "N/A"
    title := doc_props.title.getD "" }

/-- `x.get('modified', '')` on a summary table (line 488), for the
string-valued `modified` fields KOReader writes. -/
def summaryModified (t : List (LuaKey × Value)) : String :=
  match pyDictGet (LuaKey.str "modified") t with
  | some (.str s) => s
  | _ => ""

/-- Line 485 of `main`: `[d.get('summary') for d in all_data if
d.get('summary')]` — the summaries that are present and truthy (a non-empty
table). -/
def truthySummaries (all_data : List Doc) : List (List (LuaKey × Value)) :=
  all_data.filterMap (fun d =>
    match d.summary with
    | some t => if t.isEmpty then none else some t
    | none => none)

/-- Lines 484-489 of `main`: keep the truthy (present and non-empty)
summaries, stable-sort them by `modified` descending (Python's stable
`sort` with `reverse=True`), and take the first; `none` when there is no
truthy summary (the output omits the field). -/
def selectSummary (all_data : List Doc) : Option (List (LuaKey × Value)) :=
  (stableSortLt (fun a b => decide (summaryModified b < summaryModified a))
    (truthySummaries all_data)).head?

/-! ## Object-identity model of the merge

`merge_annotations` stores `ann.copy()` — a fresh dict object — at every
assignment into `merged`, and never writes to its inputs.  To state that,
records are paired with a Python object identity (an allocation counter):
a copy carries the same content under a fresh identity. -/

/-- A record object: its Python identity and its content. -/
abbrev AnnObj := Nat × Ann

/-- One iteration of the merge loop in the identity-carrying model; `c` is
the next fresh object id.  Every assignment into the dict stores
`ann.copy()`: the same content under a fresh id. -/
def mergeStepH : List (AKey × AnnObj) × Nat → AnnObj → List (AKey × AnnObj) × Nat
  | (m, c), (_, ann) =>
    let key := annotation_key ann
    match pyDictGet key m with
    | some (_, existing) =>
        if getTimestamp existing < getTimestamp ann then
          (pyDictSet key (c, ann) m, c + 1)
        else if getTimestamp ann = getTimestamp existing ∧
            noteTruthy ann ∧ ¬ noteTruthy existing then
          (pyDictSet key (c, ann) m, c + 1)
        else (m, c)
    | none => (pyDictSet key (c, ann) m, c + 1)

/-- `merge_annotations` in the identity-carrying model: `c0` is the first
unused object id (all pre-existing objects, in particular every input
record, have smaller ids). -/
def merge_annotations_h (annotations_list : List (List AnnObj)) (c0 : Nat) :
    List AnnObj × Nat :=
  let (m, c) := annotations_list.foldl (fun st anns => anns.foldl mergeStepH st) ([], c0)
  (stableSortLt (fun a b => annLt a.2 b.2) (m.map Prod.snd), c)

/-! ## Properties of the stable sort model -/

theorem insertLt_perm (lt : α → α → Bool) (x : α) (l : List α) :
    (insertLt lt x l).Perm (x :: l) := by
  induction l with
  | nil => simp [insertLt]
  | cons y l ih =>
    rw [insertLt]
    by_cases h : lt x y
    · simp [h]
    · simp only [h, if_false]
      exact ((ih.cons y).trans (List.Perm.swap x y l))

theorem stableSortLt_perm_aux (lt : α → α → Bool) :
    ∀ (l acc : List α), (l.foldl (fun acc x => insertLt lt x acc) acc).Perm (acc ++ l) := by
  intro l
  induction l with
  | nil => simp
  | cons x l ih =>
    intro acc
    have h1 := ih (insertLt lt x acc)
    have h2 : (insertLt lt x acc ++ l).Perm (acc ++ x :: l) := by
      have hx : (insertLt lt x acc).Perm (x :: acc) := insertLt_perm lt x acc
      exact (hx.append_right l).trans (List.perm_middle).symm
    rw [List.foldl_cons]
    exact h1.trans h2

theorem stableSortLt_perm (lt : α → α → Bool) (l : List α) :
    (stableSortLt lt l).Perm l := by
  simpa using stableSortLt_perm_aux lt l []

theorem insertLt_pairwise (lt : α → α → Bool)
    (asym : ∀ a b, lt a b = true → lt b a = false)
    (trans : ∀ a b c, lt a b = true → lt b c = true → lt a c = true)
    (x : α) (l : List α) (h : l.Pairwise (fun a b => lt b a = false)) :
    (insertLt lt x l).Pairwise (fun a b => lt b a = false) := by
  induction l with
  | nil => simp [insertLt]
  | cons y l ih =>
    rw [insertLt]
    rcases List.pairwise_cons.mp h with ⟨hy, hl⟩
    by_cases hxy : lt x y
    · simp only [hxy, if_true]
      refine List.pairwise_cons.mpr ⟨?_, h⟩
      intro z hz
      rcases List.mem_cons.mp hz with hz | hz
      · rw [hz]; exact asym x y hxy
      · by_cases hzx : lt z x
        · have := trans z x y hzx hxy
          rw [hy z hz] at this
          exact absurd this (by simp)
        · simpa using hzx
    · simp only [hxy, if_false]
      refine List.pairwise_cons.mpr ⟨?_, ih hl⟩
      intro z hz
      have hz2 := (insertLt_perm lt x l).mem_iff.mp hz
      rcases List.mem_cons.mp hz2 with hz3 | hz3
      · subst hz3; simpa using hxy
      · exact hy z hz3

theorem stableSortLt_pairwise (lt : α → α → Bool)
    (asym : ∀ a b, lt a b = true → lt b a = false)
    (trans : ∀ a b c, lt a b = true → lt b c = true → lt a c = true)
    (l : List α) :
    (stableSortLt lt l).Pairwise (fun a b => lt b a = false) := by
  have haux : ∀ (l acc : List α), acc.Pairwise (fun a b => lt b a = false) →
      (l.foldl (fun acc x => insertLt lt x acc) acc).Pairwise (fun a b => lt b a = false) := by
    intro l
    induction l with
    | nil => intro acc h; simpa using h
    | cons x l ih =>
      intro acc h
      rw [List.foldl_cons]
      exact ih _ (insertLt_pairwise lt asym trans x acc h)
  exact haux l [] (by simp)

theorem tripleLt_iff (x y : Int × String × String) :
    tripleLt x y = true ↔
      x.1 < y.1 ∨ (x.1 = y.1 ∧ (x.2.1 < y.2.1 ∨ (x.2.1 = y.2.1 ∧ x.2.2 < y.2.2))) := by
  obtain ⟨x1, x2, x3⟩ := x
  obtain ⟨y1, y2, y3⟩ := y
  simp [tripleLt]

theorem tripleLe_iff (x y : Int × String × String) :
    tripleLe x y = true ↔
      x.1 < y.1 ∨ (x.1 = y.1 ∧ (x.2.1 < y.2.1 ∨ (x.2.1 = y.2.1 ∧ x.2.2 ≤ y.2.2))) := by
  obtain ⟨x1, x2, x3⟩ := x
  obtain ⟨y1, y2, y3⟩ := y
  simp [tripleLe]

theorem tripleLt_asymm (x y : Int × String × String)
    (h : tripleLt x y = true) : tripleLt y x = false := by
  rw [tripleLt_iff] at h
  by_contra hc
  have h2 := tripleLt_iff y x |>.mp (by
    cases hb : tripleLt y x
    · exact absurd hb hc
    · rfl)
  rcases h with h | ⟨he1, h⟩
  · rcases h2 with h2 | ⟨he2, h2⟩
    · exact absurd h2 (not_lt_of_lt h)
    · exact absurd h (by rw [he2]; exact lt_irrefl _)
  · rcases h2 with h2 | ⟨he2, h2⟩
    · exact absurd h2 (by rw [he1]; exact lt_irrefl _)
    · rcases h with h | ⟨hf1, h⟩
      · rcases h2 with h2 | ⟨hf2, h2⟩
        · exact absurd h2 (not_lt_of_lt h)
        · exact absurd h (by rw [hf2]; exact lt_irrefl _)
      · rcases h2 with h2 | ⟨hf2, h2⟩
        · exact absurd h2 (by rw [hf1]; exact lt_irrefl _)
        · exact absurd h2 (not_lt_of_lt h)

theorem tripleLt_trans (x y z : Int × String × String)
    (hxy : tripleLt x y = true) (hyz : tripleLt y z = true) : tripleLt x z = true := by
  rw [tripleLt_iff] at hxy hyz ⊢
  rcases hxy with h1 | ⟨he1, h1⟩
  · rcases hyz with h2 | ⟨he2, h2⟩
    · exact Or.inl (h1.trans h2)
    · exact Or.inl (he2 ▸ h1)
  · rcases hyz with h2 | ⟨he2, h2⟩
    · exact Or.inl (he1 ▸ h2)
    · refine Or.inr ⟨he1.trans he2, ?_⟩
      rcases h1 with h1 | ⟨hf1, h1⟩
      · rcases h2 with h2 | ⟨hf2, h2⟩
        · exact Or.inl (h1.trans h2)
        · exact Or.inl (hf2 ▸ h1)
      · rcases h2 with h2 | ⟨hf2, h2⟩
        · exact Or.inl (hf1 ▸ h2)
        · exact Or.inr ⟨hf1.trans hf2, h1.trans h2⟩

theorem tripleLt_false_iff_le (x y : Int × String × String) :
    tripleLt y x = false ↔ tripleLe x y = true := by
  constructor
  · intro h
    rw [tripleLe_iff]
    have hn : ¬ (tripleLt y x = true) := by rw [h]; simp
    rw [tripleLt_iff] at hn
    push_neg at hn
    obtain ⟨h1, h2⟩ := hn
    rcases lt_trichotomy x.1 y.1 with hc | hc | hc
    · exact Or.inl hc
    · refine Or.inr ⟨hc, ?_⟩
      obtain ⟨h4, h5⟩ := h2 hc.symm
      rcases lt_trichotomy x.2.1 y.2.1 with hd | hd | hd
      · exact Or.inl hd
      · exact Or.inr ⟨hd, h5 hd.symm⟩
      · exact absurd hd (not_lt.mpr h4)
    · exact absurd hc (not_lt.mpr h1)
  · intro h
    rw [tripleLe_iff] at h
    cases hb : tripleLt y x
    · rfl
    · exfalso
      have h2 := (tripleLt_iff y x).mp hb
      rcases h with h | ⟨he1, h⟩
      · rcases h2 with h2 | ⟨he2, h2⟩
        · exact absurd h2 (not_lt_of_lt h)
        · exact absurd h (by rw [he2]; exact lt_irrefl _)
      · rcases h2 with h2 | ⟨he2, h2⟩
        · exact absurd h2 (by rw [he1]; exact lt_irrefl _)
        · rcases h with h | ⟨hf1, h⟩
          · rcases h2 with h2 | ⟨hf2, h2⟩
            · exact absurd h2 (not_lt_of_lt h)
            · exact absurd h (by rw [hf2]; exact lt_irrefl _)
          · rcases h2 with h2 | ⟨hf2, h2⟩
            · exact absurd h2 (by rw [hf1]; exact lt_irrefl _)
            · exact absurd h (not_le_of_lt h2)

theorem annLt_asymm (a b : Ann) (h : annLt a b = true) : annLt b a = false :=
  tripleLt_asymm _ _ h

theorem annLt_trans (a b c : Ann) (hab : annLt a b = true) (hbc : annLt b c = true) :
    annLt a c = true :=
  tripleLt_trans _ _ _ hab hbc

/-- C3.  For every input to merge, the returned sequence of surviving
records is non-decreasing in the triple `(pageno or 0, pos0 or "",
datetime or "")`, numerically in `pageno` and lexicographically in the two
text fields. -/
theorem merge_output_sorted (annotations_list : List (List Ann)) :
    (merge_annotations annotations_list).Pairwise
      (fun a b => tripleLe (sortKey a) (sortKey b) = true) := by
  have h := stableSortLt_pairwise annLt annLt_asymm annLt_trans
    (((annotations_list.foldl (fun m anns => anns.foldl mergeStep m) []).map Prod.snd))
  exact h.imp fun hab => (tripleLt_false_iff_le _ _).mp hab

/-! ## Dict lemmas -/

theorem pyDictGet_pyDictSet_self [DecidableEq κ] (k : κ) (v : β) (m : List (κ × β)) :
    pyDictGet k (pyDictSet k v m) = some v := by
  induction m with
  | nil => simp [pyDictGet, pyDictSet]
  | cons kv m ih =>
    obtain ⟨k', v'⟩ := kv
    by_cases h : k' = k
    · simp [pyDictSet, pyDictGet, h]
    · simp [pyDictSet, pyDictGet, h, ih]

theorem mem_pyDictSet [DecidableEq κ] (k : κ) (v : β) (m : List (κ × β)) :
    ∀ kv ∈ pyDictSet k v m, kv = (k, v) ∨ kv ∈ m := by
  induction m with
  | nil => simp [pyDictSet]
  | cons kv0 m ih =>
    obtain ⟨k', v'⟩ := kv0
    intro kv hkv
    by_cases h : k' = k
    · simp only [pyDictSet, h, if_true] at hkv
      rcases List.mem_cons.mp hkv with h2 | h2
      · exact Or.inl h2
      · exact Or.inr (List.mem_cons_of_mem _ h2)
    · simp only [pyDictSet, h, if_false] at hkv
      rcases List.mem_cons.mp hkv with h2 | h2
      · exact Or.inr (h2 ▸ List.mem_cons_self _ _)
      · rcases ih kv h2 with h3 | h3
        · exact Or.inl h3
        · exact Or.inr (List.mem_cons_of_mem _ h3)

theorem pyDictSet_keys_of_found [DecidableEq κ] (k : κ) (v w : β) (m : List (κ × β))
    (h : pyDictGet k m = some w) :
    (pyDictSet k v m).map Prod.fst = m.map Prod.fst := by
  induction m with
  | nil => simp [pyDictGet] at h
  | cons kv0 m ih =>
    obtain ⟨k', v'⟩ := kv0
    by_cases hk : k' = k
    · simp [pyDictSet, hk]
    · simp only [pyDictGet, hk, if_false] at h
      simp [pyDictSet, hk, ih h]

theorem pyDictGet_none_iff [DecidableEq κ] (k : κ) (m : List (κ × β)) :
    pyDictGet k m = none ↔ k ∉ m.map Prod.fst := by
  induction m with
  | nil => simp [pyDictGet]
  | cons kv0 m ih =>
    obtain ⟨k', v'⟩ := kv0
    by_cases hk : k' = k
    · simp [pyDictGet, hk]
    · simp [pyDictGet, hk, ih, Ne.symm hk]

theorem pyDictSet_of_none [DecidableEq κ] (k : κ) (v : β) (m : List (κ × β))
    (h : pyDictGet k m = none) :
    pyDictSet k v m = m ++ [(k, v)] := by
  induction m with
  | nil => simp [pyDictSet]
  | cons kv0 m ih =>
    obtain ⟨k', v'⟩ := kv0
    by_cases hk : k' = k
    · simp [pyDictGet, hk] at h
    · simp only [pyDictGet, hk, if_false] at h
      simp [pyDictSet, hk, ih h]

/-! ## C1: the conflict-resolution rule -/

/-- C1.  When a record `a` arrives and the dict already keeps `e` under the
same identity key, the kept entry afterwards is (a copy of) `a` exactly when
`a`'s timestamp (`datetime_updated`, falling back to `datetime`, falling
back to `""`) is strictly greater than `e`'s in lexicographic text order,
or the timestamps are equal and `a` has a non-empty `note` while `e` does
not; otherwise the kept entry stays `e`. -/
theorem merge_replaces_iff (m : List (AKey × Ann)) (a e : Ann)
    (h : pyDictGet (annotation_key a) m = some e) :
    pyDictGet (annotation_key a) (mergeStep m a) =
      some (if getTimestamp e < getTimestamp a ∨
          (getTimestamp a = getTimestamp e ∧ noteTruthy a = true ∧ noteTruthy e = false)
        then a else e) := by
  unfold mergeStep
  simp only [h]
  by_cases hlt : getTimestamp e < getTimestamp a
  · rw [if_pos hlt, if_pos (Or.inl hlt), pyDictGet_pyDictSet_self]
  · rw [if_neg hlt]
    by_cases htie : getTimestamp a = getTimestamp e ∧ noteTruthy a = true ∧ noteTruthy e = false
    · have htie2 : getTimestamp a = getTimestamp e ∧ noteTruthy a ∧ ¬ noteTruthy e := by
        refine ⟨htie.1, htie.2.1, ?_⟩
        simp [htie.2.2]
      rw [if_pos htie2, if_pos (Or.inr htie), pyDictGet_pyDictSet_self]
    · have htie2 : ¬ (getTimestamp a = getTimestamp e ∧ noteTruthy a ∧ ¬ noteTruthy e) := by
        intro hc
        exact htie ⟨hc.1, hc.2.1, by simpa using hc.2.2⟩
      rw [if_neg htie2, if_neg (by
        intro hc
        rcases hc with hc | hc
        · exact hlt hc
        · exact htie hc)]
      exact h

/-- C1 witness: a concrete replacement, on equal timestamps with the
incoming record carrying the only non-empty note. -/
theorem merge_replaces_iff_witness :
    pyDictGet (annotation_key
        ⟨none, none, some 5, none, none, some "2024-01-01", none, some "hello"⟩)
      (mergeStep
        [(AKey.bookmark (some 5) none,
          ⟨none, none, some 5, none, none, some "2024-01-01", none, none⟩)]
        ⟨none, none, some 5, none, none, some "2024-01-01", none, some "hello"⟩) =
      some ⟨none, none, some 5, none, none, some "2024-01-01", none, some "hello"⟩ := by
  have h := merge_replaces_iff
    [(AKey.bookmark (some 5) none,
      ⟨none, none, some 5, none, none, some "2024-01-01", none, none⟩)]
    ⟨none, none, some 5, none, none, some "2024-01-01", none, some "hello"⟩
    ⟨none, none, some 5, none, none, some "2024-01-01", none, none⟩
    (by simp [annotation_key, pyDictGet])
  rw [h, if_pos (Or.inr ⟨rfl, by decide, by decide⟩)]

/-! ## C2: identity keys and deduplication -/

/-- Invariant of the `merged` dict: every stored record's identity key is
the key it is stored under, and keys are pairwise distinct. -/
def MergedInv (m : List (AKey × Ann)) : Prop :=
  (∀ kv ∈ m, annotation_key kv.2 = kv.1) ∧ (m.map Prod.fst).Nodup

theorem mergedInv_nil : MergedInv [] := ⟨by simp, by simp⟩

theorem mergeStep_inv (m : List (AKey × Ann)) (a : Ann) (h : MergedInv m) :
    MergedInv (mergeStep m a) := by
  obtain ⟨hkeys, hnodup⟩ := h
  have hset_found : ∀ w, pyDictGet (annotation_key a) m = some w →
      MergedInv (pyDictSet (annotation_key a) a m) := by
    intro w hw
    constructor
    · intro kv hkv
      rcases mem_pyDictSet _ _ _ kv hkv with h2 | h2
      · rw [h2]
      · exact hkeys kv h2
    · rw [pyDictSet_keys_of_found _ _ _ _ hw]
      exact hnodup
  unfold mergeStep
  cases hg : pyDictGet (annotation_key a) m with
  | some existing =>
    simp only [hg]
    split
    · exact hset_found existing hg
    · split
      · exact hset_found existing hg
      · exact ⟨hkeys, hnodup⟩
  | none =>
    simp only [hg]
    rw [pyDictSet_of_none _ _ _ hg]
    constructor
    · intro kv hkv
      rcases List.mem_append.mp hkv with h2 | h2
      · exact hkeys kv h2
      · simp at h2
        rw [h2]
    · rw [List.map_append]
      simp only [List.map_cons, List.map_nil]
      rw [List.nodup_append]
      refine ⟨hnodup, by simp, ?_⟩
      intro x hx
      simp only [List.mem_singleton]
      intro hc
      rw [hc] at hx
      exact (pyDictGet_none_iff _ _ |>.mp hg) hx

theorem merged_fold_inv (annotations_list : List (List Ann)) :
    MergedInv (annotations_list.foldl (fun m anns => anns.foldl mergeStep m) []) := by
  have hinner : ∀ (anns : List Ann) (m : List (AKey × Ann)), MergedInv m →
      MergedInv (anns.foldl mergeStep m) := by
    intro anns
    induction anns with
    | nil => intro m hm; simpa using hm
    | cons a anns ih =>
      intro m hm
      rw [List.foldl_cons]
      exact ih _ (mergeStep_inv m a hm)
  have houter : ∀ (ll : List (List Ann)) (m : List (AKey × Ann)), MergedInv m →
      MergedInv (ll.foldl (fun m anns => anns.foldl mergeStep m) m) := by
    intro ll
    induction ll with
    | nil => intro m hm; simpa using hm
    | cons anns ll ih =>
      intro m hm
      rw [List.foldl_cons]
      exact ih _ (hinner anns m hm)
  exact houter annotations_list [] mergedInv_nil

/-- C2.  The identity key is `(highlight, pos0, pos1)` exactly when both
`pos0` and `pos1` are present, and `(bookmark, page, chapter)` otherwise;
consequently the merge output never contains two records with the same
identity key — records agreeing on present `pos0`/`pos1`, or lacking them
and agreeing on `page`/`chapter`, are unified into one survivor. -/
theorem annotation_key_unifies :
    (∀ (a : Ann) (p0 p1 : String), a.pos0 = some p0 → a.pos1 = some p1 →
      annotation_key a = .highlight p0 p1) ∧
    (∀ a : Ann, a.pos0 = none ∨ a.pos1 = none →
      annotation_key a = .bookmark a.page a.chapter) ∧
    (∀ annotations_list : List (List Ann),
      (merge_annotations annotations_list).Pairwise
        (fun x y => annotation_key x ≠ annotation_key y)) := by
  refine ⟨?_, ?_, ?_⟩
  · intro a p0 p1 h0 h1
    unfold annotation_key
    rw [h0, h1]
  · intro a h
    unfold annotation_key
    rcases h with h | h
    · rw [h]
    · rw [h]
      cases hp : a.pos0 <;> rfl
  · intro annotations_list
    have hinv := merged_fold_inv annotations_list
    obtain ⟨hkeys, hnodup⟩ := hinv
    set merged := annotations_list.foldl (fun m anns => anns.foldl mergeStep m) [] with hm
    have hpw : merged.Pairwise (fun kv kv' : AKey × Ann => kv.1 ≠ kv'.1) := by
      rw [← List.pairwise_map]
      exact hnodup
    have hpw2 : merged.Pairwise
        (fun kv kv' : AKey × Ann => annotation_key kv.2 ≠ annotation_key kv'.2) := by
      refine hpw.imp_of_mem ?_
      intro kv kv' hkv hkv' hne
      rw [hkeys kv hkv, hkeys kv' hkv']
      exact hne
    have hsnd : (merged.map Prod.snd).Pairwise
        (fun x y => annotation_key x ≠ annotation_key y) := by
      rw [List.pairwise_map]
      exact hpw2
    have hperm := stableSortLt_perm annLt (merged.map Prod.snd)
    exact hsnd.perm hperm.symm (fun h => Ne.symm h)

/-- C2 witness: concrete samples for both key shapes. -/
theorem annotation_key_unifies_witness :
    annotation_key ⟨some "p0", some "p1", some 3, some "ch", none, none, none, none⟩ =
      .highlight "p0" "p1" ∧
    annotation_key ⟨none, some "p1", some 3, some "ch", none, none, none, none⟩ =
      .bookmark (some 3) (some "ch") := by
  constructor
  · exact annotation_key_unifies.1 _ "p0" "p1" rfl rfl
  · exact annotation_key_unifies.2.1 _ (Or.inl rfl)

/-! ## C7: the recomputed stats table -/

/-- C7.  In the output `stats`, `highlights` counts merged records carrying
`pos0`, `notes` counts merged records with a truthy (non-empty) `note`, and
`pages` is the first document's `doc_pages` with default `0`. -/
theorem stats_counts (first_data : Doc) (merged : List Ann) :
    (buildStats first_data merged).highlights =
        merged.countP (fun ann => ann.pos0.isSome) ∧
    (buildStats first_data merged).notes =
        merged.countP (fun ann => noteTruthy ann) ∧
    (buildStats first_data merged).pages = first_data.doc_pages.getD 0 :=
  ⟨rfl, rfl, rfl⟩

/-! ## C10: the merge stores only fresh copies -/

/-- Invariant of the identity-carrying merge state: the counter never goes
below `c0`, and every object stored in the dict was allocated in `[c0, c)`,
i.e. by a `copy()` made during this merge. -/
def HeapInv (c0 : Nat) (st : List (AKey × AnnObj) × Nat) : Prop :=
  c0 ≤ st.2 ∧ ∀ kv ∈ st.1, c0 ≤ kv.2.1 ∧ kv.2.1 < st.2

theorem mergeStepH_inv (c0 : Nat) (st : List (AKey × AnnObj) × Nat) (obj : AnnObj)
    (h : HeapInv c0 st) : HeapInv c0 (mergeStepH st obj) := by
  obtain ⟨m, c⟩ := st
  obtain ⟨oid, ann⟩ := obj
  obtain ⟨hc, hm⟩ := h
  replace hc : c0 ≤ c := hc
  have hset : HeapInv c0 (pyDictSet (annotation_key ann) (c, ann) m, c + 1) := by
    constructor
    · show c0 ≤ c + 1
      omega
    · intro kv hkv
      rcases mem_pyDictSet _ _ _ kv hkv with h2 | h2


      · rw [h2]
        refine ⟨hc, ?_⟩
        show c < c + 1
        omega
      · have h3 := hm kv h2
        have h4 : kv.2.1 < c := h3.2
        refine ⟨h3.1, ?_⟩
        show kv.2.1 < c + 1
        omega
  unfold mergeStepH
  cases hg : pyDictGet (annotation_key ann) m with
  | some existing =>
    simp only [hg]
    split
    · exact hset
    · split
      · exact hset
      · exact ⟨hc, hm⟩
  | none =>
    simp only [hg]
    exact hset

theorem merge_fold_heapInv (annotations_list : List (List AnnObj)) (c0 : Nat) :
    HeapInv c0 (annotations_list.foldl (fun st anns => anns.foldl mergeStepH st) ([], c0)) := by
  have hinner : ∀ (anns : List AnnObj) st, HeapInv c0 st →
      HeapInv c0 (anns.foldl mergeStepH st) := by
    intro anns
    induction anns with
    | nil => intro st hst; simpa using hst
    | cons o anns ih =>
      intro st hst
      rw [List.foldl_cons]
      exact ih _ (mergeStepH_inv c0 st o hst)
  have houter : ∀ (ll : List (List AnnObj)) st, HeapInv c0 st →
      HeapInv c0 (ll.foldl (fun st anns => anns.foldl mergeStepH st) st) := by
    intro ll
    induction ll with
    | nil => intro st hst; simpa using hst
    | cons anns ll ih =>
      intro st hst
      rw [List.foldl_cons]
      exact ih _ (hinner anns st hst)
  exact houter annotations_list ([], c0) ⟨Nat.le_refl c0, by simp⟩

/-- C10.  Under the allocation discipline (every pre-existing record object
has id below the initial counter `c0`), every record object in the merge
output has id at least `c0` — it is one of the fresh `ann.copy()` objects,
never one of the input record objects.  (The model is pure, so the input
lists themselves are returned to the caller unchanged by construction.) -/
theorem merge_output_fresh (annotations_list : List (List AnnObj)) (c0 : Nat)
    (h : ∀ l ∈ annotations_list, ∀ o ∈ l, o.1 < c0) :
    ∀ o ∈ (merge_annotations_h annotations_list c0).1,
      c0 ≤ o.1 ∧ ∀ l ∈ annotations_list, ∀ i ∈ l, o.1 ≠ i.1 := by
  intro o ho
  have hinv := merge_fold_heapInv annotations_list c0
  set st := annotations_list.foldl (fun st anns => anns.foldl mergeStepH st) ([], c0) with hst
  obtain ⟨hc, hm⟩ := hinv
  have ho2 : o ∈ stableSortLt (fun a b : AnnObj => annLt a.2 b.2) (st.1.map Prod.snd) := by
    have : (merge_annotations_h annotations_list c0).1 =
        stableSortLt (fun a b : AnnObj => annLt a.2 b.2) (st.1.map Prod.snd) := by
      unfold merge_annotations_h
      rw [← hst]
    rwa [this] at ho
  have ho3 : o ∈ st.1.map Prod.snd :=
    (stableSortLt_perm _ _).mem_iff.mp ho2
  obtain ⟨kv, hkv, hkvo⟩ := List.mem_map.mp ho3
  have hb := hm kv hkv
  rw [hkvo] at hb
  have hb1 := hb.1
  refine ⟨hb1, ?_⟩
  intro l hl i hi
  have := h l hl i hi
  omega

/-- C10 witness: one input list holding one record object with id `0`,
initial counter `1`; every output object is a fresh copy. -/
theorem merge_output_fresh_witness :
    (∀ l ∈ [[((0 : Nat), (⟨none, none, some 5, none, none, none, none, none⟩ : Ann))]],
      ∀ o ∈ l, o.1 < 1) ∧
    (∀ o ∈ (merge_annotations_h
        [[(0, ⟨none, none, some 5, none, none, none, none, none⟩)]] 1).1,
      1 ≤ o.1 ∧ ∀ l ∈ [[((0 : Nat),
          (⟨none, none, some 5, none, none, none, none, none⟩ : Ann))]],
        ∀ i ∈ l, o.1 ≠ i.1) :=
  ⟨by simp, merge_output_fresh _ 1 (by simp)⟩

/-! ## Parser lemmas -/

theorem skipWs_cons_eq (c : Char) (rest : List Char)
    (hws : ¬(c = ' ' ∨ c = '\t' ∨ c = '\n' ∨ c = '\r')) (hd : c ≠ '-') :
    skip_whitespace_and_comments (c :: rest) = c :: rest := by
  unfold skip_whitespace_and_comments
  rw [if_neg hws, if_neg hd]

theorem parseStringAux_no_quote (q : Char) (rest acc : List Char) (hnot : q ∉ rest) :
    (parseStringAux q acc rest).2 = [] := by
  induction acc, rest using parseStringAux.induct q
  case case1 a => simp [parseStringAux]
  case case2 a r ih =>
    rw [parseStringAux]
    exact ih (fun hc => hnot (by simp [hc]))
  case case3 a r hne ih =>
    rw [parseStringAux]
    exact ih (fun hc => hnot (by simp [hc]))
    exact hne
  case case4 a => simp [parseStringAux]
  case case5 a e r h1 h2 cv ih =>
    rw [parseStringAux]
    exact ih (fun hc => hnot (by simp [hc]))
    exact h1
    exact h2
  case case6 a r hx1 hx2 hx3 hx4 =>
    exact absurd (List.mem_cons_self q r) hnot
  case case7 a c r e1 e2 e3 e4 hne ih =>
    rw [parseStringAux]
    rw [if_neg hne]
    exact ih (fun hc => hnot (by simp [hc]))
    exact e1
    exact e2
    exact e3
    exact e4

/-! ## C4: unterminated short strings -/

/-- C4 counterexample: the input `"abc` holds an unterminated short string,
yet `parse_lua_value` succeeds with the accumulated content instead of
raising — the `while` loop of `parse_lua_string` has no failure path. -/
theorem unterminated_string_ok :
    parse_lua_value 1 ['"', 'a', 'b', 'c'] = .ok (.str "abc", []) := by
  simp [parse_lua_value, skip_whitespace_and_comments, parse_lua_string, parseStringAux]

/-- C4 amended: for a short string literal whose opening quote is never
matched in the remaining input, parsing succeeds (no error of any kind),
returning the accumulated content with the input consumed to its end. -/
theorem unterminated_string_returns_content (q : Char) (rest : List Char) (fuel : Nat)
    (hq : q = '"' ∨ q = '\'') (hnot : q ∉ rest) :
    parse_lua_value (fuel + 1) (q :: rest) =
      .ok (.str (String.mk (parseStringAux q [] rest).1), []) := by
  have hws : ¬(q = ' ' ∨ q = '\t' ∨ q = '\n' ∨ q = '\r') := by
    rcases hq with h | h <;> rw [h] <;> decide
  have hd : q ≠ '-' := by
    rcases hq with h | h <;> rw [h] <;> decide
  have hnb : ¬(q = '[' ∧ (rest.head? = some '[' ∨ rest.head? = some '=')) := by
    intro hc
    rcases hq with h | h <;> rw [h] at hc <;> exact absurd hc.1 (by decide)
  rw [parse_lua_value]
  rw [skipWs_cons_eq q rest hws hd]
  simp only [hnb, if_false, hq, if_true, parse_lua_string]
  rw [parseStringAux_no_quote q rest [] hnot]

/-- C4 witness: the amended statement at the concrete unterminated input
`'abc` (single-quote variant). -/
theorem unterminated_string_returns_content_witness :
    ('\'' = '"' ∨ '\'' = '\'') ∧ ('\'' ∉ ['a', 'b', 'c']) ∧
    parse_lua_value 1 ['\'', 'a', 'b', 'c'] =
      .ok (.str (String.mk (parseStringAux '\'' [] ['a', 'b', 'c']).1), []) :=
  ⟨Or.inr rfl, by decide,
    unterminated_string_returns_content '\'' ['a', 'b', 'c'] 0 (Or.inr rfl) (by decide)⟩

/-! ## C6: keyword token boundaries -/

/-- C6 counterexample: `_` can extend an identifier, yet after `true` an
underscore does not block recognition — line 144 tests `isalnum()`, which
is false on `_`, so `true_` parses as the boolean `true`. -/
theorem keyword_underscore_boundary :
    parse_lua_value 1 ['t', 'r', 'u', 'e', '_'] = .ok (.bool true, ['_']) := by
  simp [parse_lua_value, skip_whitespace_and_comments, kwBoundary, List.isPrefixOf]

/-- C6 amended: `true`/`false`/`nil` are recognized as literals exactly when
the next character is not alphanumeric (`isalnum()`); a letter or digit
blocks recognition (falling through to the number regex, which fails, so
the parse errors), while an underscore or any other non-alphanumeric
character does not block it.  The ASCII bound in the positive direction
keeps the statement within the range where `Char.isAlphanum` agrees with
Python's Unicode-aware `str.isalnum`. -/
theorem keyword_token_boundary (fuel : Nat) (c : Char) (rest : List Char) :
    (c.isAlphanum = true →
      parse_lua_value (fuel + 1) ('t' :: 'r' :: 'u' :: 'e' :: c :: rest) =
        .error .unexpectedToken ∧
      parse_lua_value (fuel + 1) ('f' :: 'a' :: 'l' :: 's' :: 'e' :: c :: rest) =
        .error .unexpectedToken ∧
      parse_lua_value (fuel + 1) ('n' :: 'i' :: 'l' :: c :: rest) =
        .error .unexpectedToken) ∧
    (c.isAlphanum = false → c.toNat < 128 →
      parse_lua_value (fuel + 1) ('t' :: 'r' :: 'u' :: 'e' :: c :: rest) =
        .ok (.bool true, c :: rest) ∧
      parse_lua_value (fuel + 1) ('f' :: 'a' :: 'l' :: 's' :: 'e' :: c :: rest) =
        .ok (.bool false, c :: rest) ∧
      parse_lua_value (fuel + 1) ('n' :: 'i' :: 'l' :: c :: rest) =
        .ok (.nil, c :: rest)) := by
  constructor
  · intro h
    refine ⟨?_, ?_, ?_⟩ <;>
      simp [parse_lua_value, skip_whitespace_and_comments, kwBoundary,
        List.isPrefixOf, matchNumber, splitSign, splitDigits, h]
  · intro h hascii
    refine ⟨?_, ?_, ?_⟩ <;>
      simp [parse_lua_value, skip_whitespace_and_comments, kwBoundary,
        List.isPrefixOf, h]

/-- C6 witness: the amended statement at a letter (`x`, blocking) and a
comma (non-alphanumeric, not blocking). -/
theorem keyword_token_boundary_witness :
    ('x'.isAlphanum = true ∧
      parse_lua_value 1 ['t', 'r', 'u', 'e', 'x'] = .error .unexpectedToken) ∧
    (','.isAlphanum = false ∧ ','.toNat < 128 ∧
      parse_lua_value 1 ['n', 'i', 'l', ','] = .ok (.nil, [','])) :=
  ⟨⟨by decide, ((keyword_token_boundary 0 'x' []).1 (by decide)).1⟩,
   ⟨by decide, by decide, ((keyword_token_boundary 0 ',' []).2 (by decide) (by decide)).2.2⟩⟩

/-! ## C9: table key types -/

/-- C9 counterexample: the bracketed-key regex is `-?\d+` (line 194), so a
negative integer key parses fine — `{[-1]=true}` yields a table holding the
key `-1`, contradicting "never a negative integer key". -/
theorem negative_table_key :
    parse_lua_table 5 ['{', '[', '-', '1', ']', '=', 't', 'r', 'u', 'e', '}'] =
      .ok ([(.num (-1), .bool true)], []) ∧
    LuaKey.num (-1) ∈
      ([(.num (-1), .bool true)] : List (LuaKey × Value)).map Prod.fst := by
  constructor
  · simp [parse_lua_table, parseTableBody, parseTableEntry, parse_lua_value,
      skip_whitespace_and_comments, matchInt, kwBoundary, List.isPrefixOf, decValue,
      List.takeWhile, pyDictSet]
  · simp

/-- C9 amended: every key of a parsed table is an integer (possibly
negative, since the bracketed-key syntax accepts a leading `-`) or a text
string; negative integer keys are reachable, witnessed by `{[-1]=true}`. -/
theorem table_key_types :
    (∀ (fuel : Nat) (s : List Char) (t : List (LuaKey × Value)) (rest : List Char),
      parse_lua_table fuel s = .ok (t, rest) →
      ∀ kv ∈ t, (∃ n : Int, kv.1 = .num n) ∨ (∃ txt : String, kv.1 = .str txt)) ∧
    parse_lua_table 5 ['{', '[', '-', '1', ']', '=', 't', 'r', 'u', 'e', '}'] =
      .ok ([(.num (-1), .bool true)], []) := by
  constructor
  · intro fuel s t rest h kv hkv
    cases hk : kv.1 with
    | num n => exact Or.inl ⟨n, rfl⟩
    | str txt => exact Or.inr ⟨txt, rfl⟩
  · simp [parse_lua_table, parseTableBody, parseTableEntry, parse_lua_value,
      skip_whitespace_and_comments, matchInt, kwBoundary, List.isPrefixOf, decValue,
      List.takeWhile, pyDictSet]

/-- C9 witness: the typing statement applied at the parse of `{[-1]=true}`. -/
theorem table_key_types_witness :
    parse_lua_table 5 ['{', '[', '-', '1', ']', '=', 't', 'r', 'u', 'e', '}'] =
      .ok ([(.num (-1), .bool true)], []) ∧
    ∀ kv ∈ ([(LuaKey.num (-1), Value.bool true)] : List (LuaKey × Value)),
      (∃ n : Int, kv.1 = .num n) ∨ (∃ txt : String, kv.1 = .str txt) :=
  ⟨table_key_types.2, table_key_types.1 5 _ _ [] table_key_types.2⟩

/-! ## C8: summary selection -/

/-- The head of the stable sort, computed as a left fold: the accumulator
keeps the earliest element that every strict comparison so far has not
beaten. -/
def pickFirst (lt : α → α → Bool) (l : List α) : Option α :=
  l.foldl (fun b x =>
    match b with
    | none => some x
    | some h => if lt x h then some x else some h) none

theorem insertLt_head (lt : α → α → Bool) (x : α) (l : List α) :
    (insertLt lt x l).head? =
      some (match l.head? with
        | none => x
        | some h => if lt x h then x else h) := by
  cases l with
  | nil => simp [insertLt]
  | cons y l =>
    by_cases h : lt x y <;> simp [insertLt, h]

theorem stableSortLt_head (lt : α → α → Bool) (l : List α) :
    (stableSortLt lt l).head? = pickFirst lt l := by
  have haux : ∀ (l : List α) (acc : List α),
      (l.foldl (fun acc x => insertLt lt x acc) acc).head? =
        l.foldl (fun b x =>
          match b with
          | none => some x
          | some h => if lt x h then some x else some h) acc.head? := by
    intro l
    induction l with
    | nil => intro acc; simp
    | cons x l ih =>
      intro acc
      rw [List.foldl_cons, List.foldl_cons, ih, insertLt_head]
      cases hacc : acc.head? with
      | none => simp
      | some h => by_cases hlt : lt x h <;> simp [hlt]
  exact haux l []

theorem pickFirst_append_singleton (lt : α → α → Bool) (l : List α) (x : α) :
    pickFirst lt (l ++ [x]) =
      match pickFirst lt l with
      | none => some x
      | some h => if lt x h then some x else some h := by
  rw [pickFirst, List.foldl_append, List.foldl_cons, List.foldl_nil]
  rfl

theorem pickFirst_isSome (lt : α → α → Bool) (x : α) (l : List α) (b : α) :
    (l.foldl (fun b x =>
      match b with
      | none => some x
      | some h => if lt x h then some x else some h) (some b)).isSome = true := by
  induction l generalizing b with
  | nil => simp
  | cons y l ih =>
    rw [List.foldl_cons]
    by_cases h : lt y b <;> simp [h, ih]

/-- `pickFirst` with a key-comparison order returns the earliest element
whose key is maximal: everything before it is strictly smaller, everything
in the list is at most it. -/
theorem pickFirst_spec (f : α → String) :
    ∀ (l : List α) (t : α), pickFirst (fun a b => decide (f b < f a)) l = some t →
    ∃ pre post, l = pre ++ t :: post ∧
      (∀ u ∈ pre, f u < f t) ∧ (∀ u ∈ l, f u ≤ f t) := by
  intro l
  induction l using List.reverseRecOn with
  | nil => intro t h; simp [pickFirst] at h
  | append_singleton l x ih =>
    intro t h
    rw [pickFirst_append_singleton] at h
    cases hl : pickFirst (fun a b => decide (f b < f a)) l with
    | none =>
      rw [hl] at h
      simp only at h
      have hnil : l = [] := by
        cases l with
        | nil => rfl
        | cons y l2 =>
          exfalso
          rw [pickFirst, List.foldl_cons] at hl
          have h2 := pickFirst_isSome (fun a b => decide (f b < f a)) y l2 y
          rw [hl] at h2
          simp at h2
      subst hnil
      simp at h
      refine ⟨[], [], by simp [h], by simp, ?_⟩
      intro u hu
      simp at hu
      rw [hu, h]
    | some m =>
      rw [hl] at h
      simp only at h
      obtain ⟨pre, post, hsplit, hpre, hall⟩ := ih m hl
      by_cases hcmp : f m < f x
      · rw [if_pos (by simpa using hcmp)] at h
        simp at h
        refine ⟨l, [], by rw [← h], ?_, ?_⟩
        · intro u hu
          rw [← h]
          exact lt_of_le_of_lt (hall u hu) hcmp
        · intro u hu
          rcases List.mem_append.mp hu with hu | hu
          · rw [← h]
            exact le_of_lt (lt_of_le_of_lt (hall u hu) hcmp)
          · simp at hu
            rw [hu, h]
      · rw [if_neg (by simpa using hcmp)] at h
        simp at h
        subst h
        refine ⟨pre, post ++ [x], by rw [hsplit]; simp, hpre, ?_⟩
        intro u hu
        rcases List.mem_append.mp hu with hu | hu
        · exact hall u hu
        · simp at hu
          rw [hu]
          exact le_of_not_lt hcmp

/-- C8 counterexample: a document whose `summary` is an empty table carries
the field, yet `if d.get('summary')` is falsy on `{}` (line 485), so the
output omits `summary` instead of attaching that greatest summary. -/
theorem empty_summary_skipped :
    ((⟨none, none, some []⟩ : Doc).summary).isSome = true ∧
    selectSummary [⟨none, none, some []⟩] = none :=
  ⟨rfl, by simp [selectSummary, truthySummaries, stableSortLt]⟩

theorem stableSortLt_ne_nil (lt : α → α → Bool) (l : List α) (h : l ≠ []) :
    stableSortLt lt l ≠ [] := by
  intro hc
  have hperm := stableSortLt_perm lt l
  rw [hc] at hperm
  exact h hperm.symm.eq_nil

/-- C8 amended: whenever some document carries a truthy summary (present
and a non-empty table), a summary is attached, and it is the earliest one
whose `modified` text is maximal among the truthy summaries; a
present-but-empty summary table counts as absent; when no truthy summary
exists the field is omitted. -/
theorem summary_selection (all_data : List Doc) :
    (truthySummaries all_data = [] → selectSummary all_data = none) ∧
    (∀ t, selectSummary all_data = some t →
      ∃ pre post, truthySummaries all_data = pre ++ t :: post ∧
        (∀ u ∈ pre, summaryModified u < summaryModified t) ∧
        (∀ u ∈ truthySummaries all_data, summaryModified u ≤ summaryModified t)) ∧
    (truthySummaries all_data ≠ [] →
      ∃ t pre post, selectSummary all_data = some t ∧
        truthySummaries all_data = pre ++ t :: post ∧
        (∀ u ∈ pre, summaryModified u < summaryModified t) ∧
        (∀ u ∈ truthySummaries all_data, summaryModified u ≤ summaryModified t)) := by
  have hchar : ∀ t, selectSummary all_data = some t →
      ∃ pre post, truthySummaries all_data = pre ++ t :: post ∧
        (∀ u ∈ pre, summaryModified u < summaryModified t) ∧
        (∀ u ∈ truthySummaries all_data, summaryModified u ≤ summaryModified t) := by
    intro t h
    rw [selectSummary, stableSortLt_head] at h
    exact pickFirst_spec summaryModified (truthySummaries all_data) t h
  refine ⟨?_, hchar, ?_⟩
  · intro h
    rw [selectSummary, h]
    simp [stableSortLt]
  · intro hne
    have hsne := stableSortLt_ne_nil
      (fun a b => decide (summaryModified b < summaryModified a))
      (truthySummaries all_data) hne
    obtain ⟨t, rest, hshape⟩ := List.exists_cons_of_ne_nil hsne
    have hsel : selectSummary all_data = some t := by
      rw [selectSummary, hshape]
      rfl
    obtain ⟨pre, post, hsplit, hpre, hall⟩ := hchar t hsel
    exact ⟨t, pre, post, hsel, hsplit, hpre, hall⟩

/-- C8 witness: two documents with summaries modified `2024-01-01` and
`2024-03-01`; the truthy list is nonempty, the later summary is selected,
attached, and dominates the truthy list. -/
theorem summary_selection_witness :
    selectSummary
        [⟨none, none, some [(.str "modified", .str "2024-01-01")]⟩,
         ⟨none, none, some [(.str "modified", .str "2024-03-01")]⟩] =
      some [(.str "modified", .str "2024-03-01")] ∧
    (∃ pre post,
      truthySummaries
          [⟨none, none, some [(.str "modified", .str "2024-01-01")]⟩,
           ⟨none, none, some [(.str "modified", .str "2024-03-01")]⟩] =
        pre ++ [(LuaKey.str "modified", Value.str "2024-03-01")] :: post ∧
      (∀ u ∈ pre, summaryModified u <
        summaryModified [(.str "modified", .str "2024-03-01")]) ∧
      (∀ u ∈ truthySummaries
          [⟨none, none, some [(.str "modified", .str "2024-01-01")]⟩,
           ⟨none, none, some [(.str "modified", .str "2024-03-01")]⟩],
        summaryModified u ≤ summaryModified [(.str "modified", .str "2024-03-01")])) ∧
    truthySummaries
        [⟨none, none, some [(.str "modified", .str "2024-01-01")]⟩,
         ⟨none, none, some [(.str "modified", .str "2024-03-01")]⟩] ≠ [] ∧
    (∃ t pre post,
      selectSummary
          [⟨none, none, some [(.str "modified", .str "2024-01-01")]⟩,
           ⟨none, none, some [(.str "modified", .str "2024-03-01")]⟩] = some t ∧
      truthySummaries
          [⟨none, none, some [(.str "modified", .str "2024-01-01")]⟩,
           ⟨none, none, some [(.str "modified", .str "2024-03-01")]⟩] =
        pre ++ t :: post ∧
      (∀ u ∈ pre, summaryModified u < summaryModified t) ∧
      (∀ u ∈ truthySummaries
          [⟨none, none, some [(.str "modified", .str "2024-01-01")]⟩,
           ⟨none, none, some [(.str "modified", .str "2024-03-01")]⟩],
        summaryModified u ≤ summaryModified t)) := by
  have hne : truthySummaries
      [(⟨none, none, some [(.str "modified", .str "2024-01-01")]⟩ : Doc),
       ⟨none, none, some [(.str "modified", .str "2024-03-01")]⟩] ≠ [] := by
    simp [truthySummaries]
  have hsel : selectSummary
      [⟨none, none, some [(.str "modified", .str "2024-01-01")]⟩,
       ⟨none, none, some [(.str "modified", .str "2024-03-01")]⟩] =
      some [(.str "modified", .str "2024-03-01")] := by
    simp [selectSummary, truthySummaries, stableSortLt, insertLt, summaryModified,
      pyDictGet, String.lt_iff_toList_lt]
    rfl
  exact ⟨hsel, (summary_selection _).2.1 _ hsel, hne, (summary_selection _).2.2 hne⟩

/-! ## C5: scalar round trip through the serializer and parser -/

theorem digitChar_isDigit (m : Nat) : (digitChar m).isDigit = true := by
  match m with
  | 0 | 1 | 2 | 3 | 4 | 5 | 6 | 7 | 8 => decide
  | n + 9 => simp [digitChar]

theorem digitChar_toNat_sub (m : Nat) (h : m < 10) : (digitChar m).toNat - 48 = m := by
  interval_cases m <;> decide

theorem natToDec_digits (n : Nat) : ∀ c ∈ natToDec n, c.isDigit = true := by
  induction n using Nat.strong_induction_on with
  | _ n ih =>
    by_cases h : n < 10
    · rw [natToDec, dif_pos h]
      intro c hc
      simp at hc
      rw [hc]
      exact digitChar_isDigit n
    · rw [natToDec, dif_neg h]
      intro c hc
      rcases List.mem_append.mp hc with hc | hc
      · exact ih (n / 10) (Nat.div_lt_self (by omega) (by omega)) c hc
      · simp at hc
        rw [hc]
        exact digitChar_isDigit (n % 10)

theorem natToDec_ne_nil (n : Nat) : natToDec n ≠ [] := by
  by_cases h : n < 10
  · rw [natToDec, dif_pos h]
    simp
  · rw [natToDec, dif_neg h]
    simp

theorem decValue_append_singleton (l : List Char) (c : Char) :
    decValue (l ++ [c]) = 10 * decValue l + (c.toNat - 48) := by
  rw [decValue, decValue, List.foldl_append]
  rfl

theorem decValue_natToDec (n : Nat) : decValue (natToDec n) = n := by
  induction n using Nat.strong_induction_on with
  | _ n ih =>
    by_cases h : n < 10
    · rw [natToDec, dif_pos h]
      show 10 * 0 + ((digitChar n).toNat - 48) = n
      rw [digitChar_toNat_sub n h]
      omega
    · rw [natToDec, dif_neg h, decValue_append_singleton,
        ih (n / 10) (Nat.div_lt_self (by omega) (by omega)),
        digitChar_toNat_sub (n % 10) (by omega)]
      omega

theorem takeWhile_all (p : α → Bool) (l : List α) (h : ∀ c ∈ l, p c = true) :
    l.takeWhile p = l := by
  induction l with
  | nil => rfl
  | cons c cs ih =>
    rw [List.takeWhile_cons, h c (List.mem_cons_self c cs)]
    simp [ih (fun x hx => h x (List.mem_cons_of_mem c hx))]

theorem matchNumber_digits (c : Char) (cs : List Char)
    (hd : ∀ x ∈ c :: cs, x.isDigit = true) :
    matchNumber (c :: cs) = some (⟨false, c :: cs, false, [], none⟩, []) := by
  have hc : c ≠ '-' := by
    intro he
    have := hd c (List.mem_cons_self c cs)
    rw [he] at this
    exact absurd this (by decide)
  have htw : (c :: cs).takeWhile Char.isDigit = c :: cs := takeWhile_all _ _ hd
  have h1 : splitSign (c :: cs) = (false, c :: cs) := by simp [splitSign, hc]
  have h2 : splitDigits (c :: cs) = (c :: cs, []) := by
    rw [splitDigits, htw, List.drop_length]
  have h3 : splitDot [] = (false, [], []) := rfl
  have h4 : splitExp [] = (none, []) := rfl
  simp [matchNumber, h1, h2, h3, h4]

theorem skipWs_dash (r : Char) (rr : List Char) (h : r ≠ '-') :
    skip_whitespace_and_comments ('-' :: r :: rr) = '-' :: r :: rr := by
  unfold skip_whitespace_and_comments
  rw [if_neg (by decide), if_pos rfl]
  split
  · next r2 heq =>
    exfalso
    rw [List.cons.injEq] at heq
    exact h heq.1
  · rfl

/-- Characters produced by `natToDec` are digits, hence distinct from the
delimiters the value parser dispatches on. -/
theorem digit_not_special (c : Char) (h : c.isDigit = true) :
    ¬(c = ' ' ∨ c = '\t' ∨ c = '\n' ∨ c = '\r') ∧ c ≠ '-' ∧ c ≠ '[' ∧
      c ≠ '"' ∧ c ≠ '\'' ∧ c ≠ '{' ∧ c ≠ 't' ∧ c ≠ 'f' ∧ c ≠ 'n' := by
  refine ⟨?_, ?_, ?_, ?_, ?_, ?_, ?_, ?_, ?_⟩ <;>
    first
      | (intro hc
         rcases hc with hc | hc | hc | hc <;> rw [hc] at h <;> exact absurd h (by decide))
      | (intro hc
         rw [hc] at h
         exact absurd h (by decide))

theorem parse_num_digits (fuel : Nat) (c : Char) (cs : List Char)
    (hd : ∀ x ∈ c :: cs, x.isDigit = true) :
    parse_lua_value (fuel + 1) (c :: cs) = .ok (.num (decValue (c :: cs)), []) := by
  have hc := hd c (List.mem_cons_self c cs)
  obtain ⟨hws, hdash, hbr, hq1, hq2, hbrace, ht, hf, hn⟩ := digit_not_special c hc
  rw [parse_lua_value, skipWs_cons_eq c cs hws hdash]
  simp [hbr, hq1, hq2, hbrace, kwBoundary, List.isPrefixOf, Ne.symm ht, Ne.symm hf,
    Ne.symm hn, matchNumber_digits c cs hd, intOfNumLit]

/-- Parsing the decimal text of an integer recovers that integer. -/
theorem parse_intToDec (fuel : Nat) (n : Int) :
    parse_lua_value (fuel + 1) (intToDec n) = .ok (.num n, []) := by
  by_cases hneg : n < 0
  · rw [intToDec, if_pos hneg]
    obtain ⟨c, cs, hshape⟩ := List.exists_cons_of_ne_nil (natToDec_ne_nil n.natAbs)
    have hd : ∀ x ∈ c :: cs, x.isDigit = true := by
      rw [← hshape]
      exact natToDec_digits n.natAbs
    have hc := hd c (List.mem_cons_self c cs)
    obtain ⟨hws, hdash, hbr, hq1, hq2, hbrace, ht, hf, hn⟩ := digit_not_special c hc
    have hmn : matchNumber ('-' :: c :: cs) =
        some (⟨true, c :: cs, false, [], none⟩, []) := by
      have htw : (c :: cs).takeWhile Char.isDigit = c :: cs := takeWhile_all _ _ hd
      have h1 : splitSign ('-' :: c :: cs) = (true, c :: cs) := by simp [splitSign]
      have h2 : splitDigits (c :: cs) = (c :: cs, []) := by
        rw [splitDigits, htw, List.drop_length]
      simp [matchNumber, h1, h2, show splitDot [] = (false, [], []) from rfl,
        show splitExp [] = (none, []) from rfl]
    have hval : decValue (c :: cs) = n.natAbs := by
      rw [← hshape]
      exact decValue_natToDec n.natAbs
    have harg : -(decValue (c :: cs) : Int) = n := by
      rw [hval]
      omega
    rw [hshape, parse_lua_value, skipWs_dash c cs hdash]
    simp [kwBoundary, List.isPrefixOf, hmn, intOfNumLit, harg]
  · rw [intToDec, if_neg hneg]
    obtain ⟨c, cs, hshape⟩ := List.exists_cons_of_ne_nil (natToDec_ne_nil n.natAbs)
    have hd : ∀ x ∈ c :: cs, x.isDigit = true := by
      rw [← hshape]
      exact natToDec_digits n.natAbs
    have hval : (decValue (c :: cs) : Int) = n := by
      rw [← hshape, decValue_natToDec]
      omega
    rw [hshape, parse_num_digits fuel c cs hd, hval]

/-- Decoding the escaped body of a serialized string (`acc` generalizes the
partially decoded prefix, reversed): every escape emitted by
`lua_escape_char` decodes back to its source character, and the closing
quote ends the scan with nothing left over. -/
theorem parseStringAux_escape (l : List Char) : ∀ acc : List Char,
    parseStringAux '"' acc (l.foldr (fun c acc2 => lua_escape_char c ++ acc2) ['"']) =
      (acc.reverse ++ l, []) := by
  induction l with
  | nil =>
    intro acc
    simp [parseStringAux]
  | cons c cs ih =>
    intro acc
    rw [List.foldr_cons]
    by_cases h1 : c = '\\'
    · subst h1
      rw [show lua_escape_char '\\' = ['\\', '\\'] from rfl]
      simp only [List.cons_append, List.nil_append]
      simp [parseStringAux, ih]
    · by_cases h2 : c = '"'
      · subst h2
        rw [show lua_escape_char '"' = ['\\', '"'] from rfl]
        simp only [List.cons_append, List.nil_append]
        simp [parseStringAux, ih]
      · by_cases h3 : c = '\n'
        · subst h3
          rw [show lua_escape_char '\n' = ['\\', 'n'] from rfl]
          simp only [List.cons_append, List.nil_append]
          simp [parseStringAux, ih]
        · by_cases h4 : c = '\r'
          · subst h4
            rw [show lua_escape_char '\r' = ['\\', 'r'] from rfl]
            simp only [List.cons_append, List.nil_append]
            simp [parseStringAux, ih]
          · by_cases h5 : c = '\t'
            · subst h5
              rw [show lua_escape_char '\t' = ['\\', 't'] from rfl]
              simp only [List.cons_append, List.nil_append]
              simp [parseStringAux, ih]
            · rw [show lua_escape_char c = [c] from by
                simp [lua_escape_char, h1, h2, h3, h4, h5]]
              simp only [List.cons_append, List.nil_append]
              simp [parseStringAux, h1, h2, ih]

/-- Parsing the serializer's output for a text value recovers it exactly. -/
theorem parse_str_round (fuel : Nat) (l : List Char) :
    parse_lua_value (fuel + 1) (lua_escape_string l) = .ok (.str (String.mk l), []) := by
  rw [lua_escape_string, parse_lua_value,
    skipWs_cons_eq '"' _ (by decide) (by decide)]
  simp [parse_lua_string, parseStringAux_escape l []]

theorem decValue_from (l : List Char) : ∀ a : Nat,
    l.foldl (fun a c => 10 * a + (c.toNat - 48)) a =
      a * 10 ^ l.length + decValue l := by
  induction l with
  | nil => intro a; simp [decValue]
  | cons c cs ih =>
    intro a
    simp only [List.foldl_cons]
    rw [ih]
    have h2 : decValue (c :: cs) = (c.toNat - 48) * 10 ^ cs.length + decValue cs := by
      rw [decValue]
      simp only [List.foldl_cons]
      rw [ih]
      ring
    rw [h2, List.length_cons]
    ring

theorem decValue_cons (c : Char) (l : List Char) :
    decValue (c :: l) = (c.toNat - 48) * 10 ^ l.length + decValue l := by
  rw [decValue]
  simp only [List.foldl_cons]
  rw [decValue_from]
  ring

theorem decValue_append (l1 l2 : List Char) :
    decValue (l1 ++ l2) = decValue l1 * 10 ^ l2.length + decValue l2 := by
  rw [decValue, List.foldl_append, ← decValue, decValue_from]

theorem decValue_replicate_zero (z : Nat) (l : List Char) :
    decValue (List.replicate z '0' ++ l) = decValue l := by
  rw [decValue_append]
  have hz : decValue (List.replicate z '0') = 0 := by
    induction z with
    | zero => rfl
    | succ n ih =>
      rw [List.replicate_succ, decValue_cons, ih]
      have h0 : '0'.toNat - 48 = 0 := by decide
      rw [h0]
      ring
  rw [hz]
  ring

theorem takeWhile_append_stop (p : Char → Bool) (l1 : List Char) (c2 : Char)
    (t : List Char) (h1 : ∀ c ∈ l1, p c = true) (h2 : p c2 = false) :
    (l1 ++ c2 :: t).takeWhile p = l1 := by
  induction l1 with
  | nil => simp [List.takeWhile_cons, h2]
  | cons c cs ih =>
    rw [List.cons_append, List.takeWhile_cons, h1 c (List.mem_cons_self c cs)]
    simp only [if_true]
    rw [ih (fun x hx => h1 x (List.mem_cons_of_mem c hx))]

/-- `matchNumber` on a serialized decimal `ip.fp` (both parts digit runs,
`ip` nonempty): the whole input is consumed into a dotted literal. -/
theorem matchNumber_dec (c : Char) (ip fp : List Char)
    (hip : ∀ x ∈ c :: ip, x.isDigit = true) (hfp : ∀ x ∈ fp, x.isDigit = true) :
    matchNumber ((c :: ip) ++ '.' :: fp) =
      some (⟨false, c :: ip, true, fp, none⟩, []) := by
  have hc : c ≠ '-' := by
    intro he
    have := hip c (List.mem_cons_self c ip)
    rw [he] at this
    exact absurd this (by decide)
  have htw : ((c :: ip) ++ '.' :: fp).takeWhile Char.isDigit = c :: ip :=
    takeWhile_append_stop _ _ _ _ hip (by decide)
  have htw2 : fp.takeWhile Char.isDigit = fp := takeWhile_all _ _ hfp
  have h1 : splitSign ((c :: ip) ++ '.' :: fp) = (false, (c :: ip) ++ '.' :: fp) := by
    simp [splitSign, hc]
  have h2 : splitDigits ((c :: ip) ++ '.' :: fp) = (c :: ip, '.' :: fp) := by
    rw [splitDigits, htw]
    rw [List.drop_left]
  have h3 : splitDot ('.' :: fp) = (true, fp, []) := by
    rw [splitDot]
    simp [htw2, List.drop_length]
  have h4 : splitExp [] = (none, []) := rfl
  simp only [List.cons_append] at h1 h2
  simp [matchNumber, h1, h2, h3, h4]

theorem matchNumber_dec_neg (c : Char) (ip fp : List Char)
    (hip : ∀ x ∈ c :: ip, x.isDigit = true) (hfp : ∀ x ∈ fp, x.isDigit = true) :
    matchNumber ('-' :: ((c :: ip) ++ '.' :: fp)) =
      some (⟨true, c :: ip, true, fp, none⟩, []) := by
  have htw : ((c :: ip) ++ '.' :: fp).takeWhile Char.isDigit = c :: ip :=
    takeWhile_append_stop _ _ _ _ hip (by decide)
  have htw2 : fp.takeWhile Char.isDigit = fp := takeWhile_all _ _ hfp
  have h1 : splitSign ('-' :: ((c :: ip) ++ '.' :: fp)) =
      (true, (c :: ip) ++ '.' :: fp) := by
    simp [splitSign]
  have h2 : splitDigits ((c :: ip) ++ '.' :: fp) = (c :: ip, '.' :: fp) := by
    rw [splitDigits, htw]
    rw [List.drop_left]
  have h3 : splitDot ('.' :: fp) = (true, fp, []) := by
    rw [splitDot]
    simp [htw2, List.drop_length]
  have h4 : splitExp [] = (none, []) := rfl
  simp only [List.cons_append] at h1 h2
  simp [matchNumber, h1, h2, h3, h4]

theorem pyTrunc_den_one (q : Rat) (h : q.den = 1) : pyTrunc q = q.num := by
  rw [pyTrunc, h]
  by_cases hn : q.num < 0
  · rw [if_pos hn]
    simp only [Nat.div_one]
    omega
  · rw [if_neg hn]
    simp only [Nat.div_one]
    omega

/-- Serializing an integer-valued float prints it as the integer
(`value == int(value)` holds, line 319). -/
theorem format_flt_int (q : Rat) (hden : q.den = 1) (f i : Nat) :
    format_lua_value f (.flt q) i = some (intToDec q.num) := by
  have htr : pyTrunc q = q.num := pyTrunc_den_one q hden
  have hcond : q = ((pyTrunc q : Int) : Rat) := by
    rw [htr]
    exact (Rat.coe_int_num_of_den_eq_one hden).symm
  simp only [format_lua_value]
  rw [if_pos hcond, htr]

/-- Serializing a non-integer float uses the decimal printer. -/
theorem format_flt_notint (q : Rat) (hden : q.den ≠ 1) (f i : Nat) :
    format_lua_value f (.flt q) i = some (pyFloatStr q) := by
  have hne : ¬ (q = ((pyTrunc q : Int) : Rat)) := by
    intro he
    have h2 : ((pyTrunc q : Int) : Rat).den = 1 := Rat.den_intCast (pyTrunc q)
    rw [← he] at h2
    exact hden h2
  simp only [format_lua_value]
  rw [if_neg hne]

/-- Parsing the decimal printed by `pyFloatStr` recovers the float exactly,
whenever its decimal expansion terminates within the search bound (as every
float printed positionally does). -/
theorem parse_pyFloatStr (fuel : Nat) (q : Rat) (hden : q.den ≠ 1)
    (hk : (q.num * (10 : Int) ^ (decExpSearch q 400 0)) % (q.den : Int) = 0) :
    parse_lua_value (fuel + 1) (pyFloatStr q) = .ok (.flt q, []) := by
  set k := decExpSearch q 400 0 with hkdef
  set m : Int := (q.num * (10 : Int) ^ k) / (q.den : Int) with hmdef
  set ds0 := natToDec m.natAbs with hds0def
  set ds := if ds0.length < k + 1 then List.replicate (k + 1 - ds0.length) '0' ++ ds0
    else ds0 with hdsdef
  set ip := ds.take (ds.length - k) with hipdef
  set fp := ds.drop (ds.length - k) with hfpdef
  have hpy : pyFloatStr q = (if q.num < 0 then ['-'] else []) ++ ip ++ '.' :: fp := rfl
  -- arithmetic: m is exactly q * 10^k
  have hdvd : (q.den : Int) ∣ q.num * (10 : Int) ^ k := Int.dvd_of_emod_eq_zero hk
  have hf1 : m * (q.den : Int) = q.num * (10 : Int) ^ k := by
    rw [hmdef]
    exact Int.ediv_mul_cancel hdvd
  have hden0 : ((q.den : Rat)) ≠ 0 := by
    have := q.den_nz
    exact_mod_cast this
  have hq : (q.num : Rat) / (q.den : Rat) = q := Rat.num_div_den q
  have hF2 : (m : Rat) = q * (10 : Rat) ^ k := by
    have hf2 : (m : Rat) * (q.den : Rat) = (q.num : Rat) * (10 : Rat) ^ k := by
      exact_mod_cast congrArg (fun z : Int => (z : Rat)) hf1
    rw [← hq, div_mul_eq_mul_div, eq_div_iff hden0]
    exact hf2
  -- digit-string bookkeeping
  have hd0 : ∀ x ∈ ds0, x.isDigit = true := by
    rw [hds0def]
    exact natToDec_digits m.natAbs
  have hdds : ∀ x ∈ ds, x.isDigit = true := by
    rw [hdsdef]
    split
    · intro x hx
      rcases List.mem_append.mp hx with hx | hx
      · rw [List.eq_of_mem_replicate hx]
        decide
      · exact hd0 x hx
    · exact hd0
  have hdsval : decValue ds = m.natAbs := by
    rw [hdsdef]
    split
    · rw [decValue_replicate_zero, hds0def, decValue_natToDec]
    · rw [hds0def, decValue_natToDec]
  have hlen : k + 1 ≤ ds.length := by
    rw [hdsdef]
    split
    · next hsp =>
      rw [List.length_append, List.length_replicate]
      omega
    · next hsp =>
      omega
  have hipfp : ip ++ fp = ds := by
    rw [hipdef, hfpdef]
    exact List.take_append_drop _ _
  have hfplen : fp.length = k := by
    rw [hfpdef, List.length_drop]
    omega
  have hiplen : 1 ≤ ip.length := by
    rw [hipdef, List.length_take]
    omega
  have hipne : ip ≠ [] := by
    intro hc
    rw [hc] at hiplen
    simp at hiplen
  obtain ⟨c, ip', hip⟩ := List.exists_cons_of_ne_nil hipne
  have hipd : ∀ x ∈ c :: ip', x.isDigit = true := by
    rw [← hip, hipdef]
    intro x hx
    exact hdds x (List.mem_of_mem_take hx)
  have hfpd : ∀ x ∈ fp, x.isDigit = true := by
    rw [hfpdef]
    intro x hx
    exact hdds x (List.mem_of_mem_drop hx)
  -- numeric value of the two digit runs
  have hF9 : decValue ip * 10 ^ k + decValue fp = m.natAbs := by
    rw [← hdsval, ← hipfp, decValue_append, hfplen]
  have hpow0 : ((10 : Rat) ^ k) ≠ 0 := by positivity
  have hmant : (decValue ip : Rat) + (decValue fp : Rat) / (10 : Rat) ^ k =
      (m.natAbs : Rat) / (10 : Rat) ^ k := by
    have h9 : (decValue ip : Rat) * (10 : Rat) ^ k + (decValue fp : Rat) =
        (m.natAbs : Rat) := by
      exact_mod_cast congrArg (fun z : Nat => (z : Rat)) hF9
    field_simp
    linarith [h9]
  have hdenpos : (0 : Int) < (q.den : Int) := by
    exact_mod_cast q.pos
  by_cases hneg : q.num < 0
  · -- negative float: printed with a sign
    have hmneg : m < 0 := by
      rw [hmdef]
      have h10 : (0 : Int) < (10 : Int) ^ k := by positivity
      exact Int.ediv_neg' (mul_neg_of_neg_of_pos hneg h10) hdenpos
    have habs : (m.natAbs : Rat) = -(m : Rat) := by
      have hmr : (m : Rat) < 0 := by exact_mod_cast hmneg
      rw [Int.cast_natAbs, Int.cast_abs]
      exact abs_of_neg hmr
    have hval : ratOfNumLit ⟨true, c :: ip', true, fp, none⟩ = q := by
      simp only [ratOfNumLit]
      rw [← hip, hfplen, hmant, habs, hF2]
      field_simp
    rw [hpy, if_pos hneg]
    simp only [List.cons_append, List.nil_append]
    rw [hip]
    have hcd := hipd c (List.mem_cons_self c ip')
    obtain ⟨hws, hdash, hbr, hq1, hq2, hbrace, ht, hf, hn⟩ := digit_not_special c hcd
    rw [show ('-' :: ((c :: ip') ++ '.' :: fp)) = '-' :: c :: (ip' ++ '.' :: fp) by simp]
    rw [parse_lua_value, skipWs_dash c _ hdash]
    have hmn := matchNumber_dec_neg c ip' fp hipd hfpd
    simp only [List.cons_append] at hmn
    simp [kwBoundary, List.isPrefixOf, hmn, hval]
  · -- non-negative float
    have hmpos : 0 ≤ m := by
      rw [hmdef]
      have h10 : (0 : Int) ≤ (10 : Int) ^ k := by positivity
      exact Int.ediv_nonneg (mul_nonneg (by omega) h10) (le_of_lt hdenpos)
    have habs : (m.natAbs : Rat) = (m : Rat) := by
      have hmr : (0 : Rat) ≤ (m : Rat) := by exact_mod_cast hmpos
      rw [Int.cast_natAbs, Int.cast_abs]
      exact abs_of_nonneg hmr
    have hval : ratOfNumLit ⟨false, c :: ip', true, fp, none⟩ = q := by
      simp only [ratOfNumLit]
      rw [← hip, hfplen, hmant, habs, hF2]
      field_simp
    rw [hpy, if_neg hneg]
    simp only [List.nil_append]
    rw [hip]
    have hcd := hipd c (List.mem_cons_self c ip')
    obtain ⟨hws, hdash, hbr, hq1, hq2, hbrace, ht, hf, hn⟩ := digit_not_special c hcd
    rw [show ((c :: ip') ++ '.' :: fp) = c :: (ip' ++ '.' :: fp) by simp]
    rw [parse_lua_value, skipWs_cons_eq c _ hws hdash]
    have hmn := matchNumber_dec c ip' fp hipd hfpd
    simp only [List.cons_append] at hmn
    simp [hbr, hq1, hq2, hbrace, kwBoundary, List.isPrefixOf, Ne.symm ht, Ne.symm hf,
      Ne.symm hn, hmn, hval]

/-- C5.  Parsing the serializer's output reconstructs every supported
scalar: `nil`, both booleans, every integer, every text string (the
escaping of `\`, `"`, newline, carriage return and tab round-trips, as does
every other character passed through raw), and every float — an
integer-valued float comes back as the corresponding integer (the
documented exception), and a non-integer float (terminating decimal, as
all positionally printed floats are) comes back as itself. -/
theorem scalar_round_trip (fuel : Nat) :
    (∃ out, format_lua_value 0 .nil 0 = some out ∧
      parse_lua_value (fuel + 1) out = .ok (.nil, [])) ∧
    (∃ out, format_lua_value 0 (.bool true) 0 = some out ∧
      parse_lua_value (fuel + 1) out = .ok (.bool true, [])) ∧
    (∃ out, format_lua_value 0 (.bool false) 0 = some out ∧
      parse_lua_value (fuel + 1) out = .ok (.bool false, [])) ∧
    (∀ n : Int, ∃ out, format_lua_value 0 (.num n) 0 = some out ∧
      parse_lua_value (fuel + 1) out = .ok (.num n, [])) ∧
    (∀ s : String, ∃ out, format_lua_value 0 (.str s) 0 = some out ∧
      parse_lua_value (fuel + 1) out = .ok (.str s, [])) ∧
    (∀ q : Rat, q.den = 1 → ∃ out, format_lua_value 0 (.flt q) 0 = some out ∧
      parse_lua_value (fuel + 1) out = .ok (.num q.num, [])) ∧
    (∀ q : Rat, q.den ≠ 1 →
      (q.num * (10 : Int) ^ (decExpSearch q 400 0)) % (q.den : Int) = 0 →
      ∃ out, format_lua_value 0 (.flt q) 0 = some out ∧
        parse_lua_value (fuel + 1) out = .ok (.flt q, [])) := by
  refine ⟨?_, ?_, ?_, ?_, ?_, ?_, ?_⟩
  · refine ⟨['n', 'i', 'l'], by simp [format_lua_value], ?_⟩
    simp [parse_lua_value, skip_whitespace_and_comments, kwBoundary, List.isPrefixOf]
  · refine ⟨['t', 'r', 'u', 'e'], by simp [format_lua_value], ?_⟩
    simp [parse_lua_value, skip_whitespace_and_comments, kwBoundary, List.isPrefixOf]
  · refine ⟨['f', 'a', 'l', 's', 'e'], by simp [format_lua_value], ?_⟩
    simp [parse_lua_value, skip_whitespace_and_comments, kwBoundary, List.isPrefixOf]
  · intro n
    exact ⟨intToDec n, by simp [format_lua_value], parse_intToDec fuel n⟩
  · intro s
    exact ⟨lua_escape_string s.data, by simp [format_lua_value],
      parse_str_round fuel s.data⟩
  · intro q hden
    exact ⟨intToDec q.num, format_flt_int q hden 0 0, parse_intToDec fuel q.num⟩
  · intro q hden hk
    exact ⟨pyFloatStr q, format_flt_notint q hden 0 0, parse_pyFloatStr fuel q hden hk⟩

/-- C5 witness: the float conjuncts at `3.0` (integer-valued, comes back as
the integer `3`) and `5/2` (prints as `2.5` and comes back as itself). -/
theorem scalar_round_trip_witness :
    ((3 : Rat).den = 1 ∧ ∃ out, format_lua_value 0 (.flt 3) 0 = some out ∧
      parse_lua_value 1 out = .ok (.num (3 : Rat).num, [])) ∧
    ((mkRat 5 2).den ≠ 1 ∧
      ((mkRat 5 2).num * (10 : Int) ^ (decExpSearch (mkRat 5 2) 400 0)) %
        ((mkRat 5 2).den : Int) = 0 ∧
      ∃ out, format_lua_value 0 (.flt (mkRat 5 2)) 0 = some out ∧
        parse_lua_value 1 out = .ok (.flt (mkRat 5 2), [])) :=
  ⟨⟨by decide, (scalar_round_trip 0).2.2.2.2.2.1 3 (by decide)⟩,
   ⟨by decide, by decide,
    (scalar_round_trip 0).2.2.2.2.2.2 (mkRat 5 2) (by decide) (by decide)⟩⟩

end Koreader
